import Mathlib


/-!
Verification of the push-to-fix orchestration pipeline.

Python strings are modelled as `List Char` (one element per code point),
dict-shaped API payloads as structures with `Option` fields for keys read
via `dict.get`, and the HTTP / store side effects as explicit function
parameters together with an `Action` trace returned by the pipeline.
-/

namespace RepoPilot

/-- Python strings are modelled as lists of characters. -/
abbrev Str := List Char

/-- Decimal rendering of a natural number, as Python's `str`/f-string does. -/
def natStr (n : Nat) : Str := (toString n).data

/-- A workflow-run object as returned by the host for one commit.
`status` and `conclusion` are read with `dict.get` in the source, so they
are optional; `id` is accessed with `r["id"]` and is required. -/
structure WorkflowRun where
  id : Nat
  name : Option Str
  html_url : Option Str
  status : Option Str
  conclusion : Option Str
deriving DecidableEq, Repr

/-- The `{id, name, html_url, conclusion}` projection built for each failed
run in `wait_for_ci` (source: `github_service.py`, lines 127-136). -/
structure FailedRun where
  id : Nat
  name : Str
  html_url : Str
  conclusion : Str
deriving DecidableEq, Repr

/-- The dict returned by `GitHubService.wait_for_ci`. -/
structure CiResult where
  status : Str
  failed_runs : List FailedRun
  all_runs : List WorkflowRun
deriving DecidableEq, Repr

/-- `r.get("status") == "completed"` from the `all_completed` check. -/
def runCompleted (r : WorkflowRun) : Bool :=
  r.status = some "completed".data

/-- `r.get("conclusion") in ("failure", "timed_out", "cancelled")`.
A missing conclusion (`None`) is not in the tuple. -/
def badConclusion : Option Str → Bool
  | some c => c = "failure".data ∨ c = "timed_out".data ∨ c = "cancelled".data
  | none => false

/-- The list comprehension building `failed` in `wait_for_ci`: the runs with
a failing conclusion, projected to `{id, name, html_url, conclusion}` with
`.get(…, "")` defaults, in host order. -/
def failedOf (runs : List WorkflowRun) : List FailedRun :=
  runs.filterMap fun r =>
    if badConclusion r.conclusion then
      some ⟨r.id, r.name.getD [], r.html_url.getD [], r.conclusion.getD []⟩
    else none

/-- The classification performed when every run has completed:
`status = "failure" if failed else "success"`. -/
def classifyRuns (runs : List WorkflowRun) : CiResult :=
  let failed := failedOf runs
  { status := if failed.isEmpty then "success".data else "failure".data
    failed_runs := failed
    all_runs := runs }

/-- One iteration of the polling loop in `wait_for_ci`, applied to one
observation `(now, runs)` — the wall-clock time at the deadline checks and
the run list fetched by this poll.  `none` means the loop sleeps and polls
again. -/
def ciPoll (deadline : Nat) (p : Nat × List WorkflowRun) : Option CiResult :=
  if p.2.isEmpty then
    if p.1 ≥ deadline then some ⟨"no_ci".data, [], []⟩ else none
  else if p.2.all runCompleted then
    some (classifyRuns p.2)
  else if p.1 ≥ deadline then
    some ⟨"timeout".data, [], p.2⟩
  else none

/-- `GitHubService.wait_for_ci`, over the trace of poll observations.
Each element of `obs` is one cycle of the `while True` loop; the loop
returns at the first deciding poll.  `none` means the observation trace
was exhausted before a decision (the real loop would keep polling). -/
def wait_for_ci (deadline : Nat) : List (Nat × List WorkflowRun) → Option CiResult
  | [] => none
  | p :: rest =>
    match ciPoll deadline p with
    | some r => some r
    | none => wait_for_ci deadline rest

/-- `"sep".join(parts)` from Python. -/
def joinSep (sep : Str) : List Str → Str
  | [] => []
  | [x] => x
  | x :: xs => x ++ sep ++ joinSep sep xs

/-- A job object inside a workflow run, as read by
`GitHubService.get_workflow_run_logs` (`id` required, the rest via `.get`). -/
structure Job where
  id : Nat
  name : Option Str
  conclusion : Option Str
deriving DecidableEq, Repr

/-- The tail-truncation applied to one job's log text in
`get_workflow_run_logs` (source lines 173-176): texts longer than 6000
characters keep only their last 6000 characters behind a marker. -/
def truncateLog (text : Str) : Str :=
  if text.length > 6000 then
    "...(truncated)...\n".data ++ text.drop (text.length - 6000)
  else text

/-- The body of the per-job loop in `get_workflow_run_logs`: jobs whose
conclusion is not exactly `failure` are skipped; otherwise the log is
fetched and, when the fetch succeeds, the labelled (possibly truncated)
text is appended. -/
def logStep (fetchLog : Nat → Option Str) (acc : List Str × List Nat)
    (job : Job) : List Str × List Nat :=
  if job.conclusion ≠ some "failure".data then acc
  else
    match fetchLog job.id with
    | some text =>
      (acc.1 ++
        ["=== Job: ".data ++ job.name.getD "unknown".data ++ " (id ".data ++
          natStr job.id ++ ") ===\n".data ++ truncateLog text],
        acc.2 ++ [job.id])
    | none => (acc.1, acc.2 ++ [job.id])

/-- `GitHubService.get_workflow_run_logs`.  `jobsResp` is the decoded body of
the jobs-listing call (`none` for a non-200 response, which short-circuits to
an empty string); `fetchLog` maps a job id to its log text (`none` for a
non-200 log response).  Besides the text the model returns the ids of the
jobs whose logs were fetched, in request order. -/
def get_workflow_run_logs (jobsResp : Option (List Job))
    (fetchLog : Nat → Option Str) : Str × List Nat :=
  match jobsResp with
  | none => ([], [])
  | some jobs =>
    let r := jobs.foldl (logStep fetchLog) ([], [])
    (if r.1 ≠ [] then joinSep "\n\n".data r.1 else "No failure logs available".data, r.2)

/-! ### The fix-extraction parser (`parse_file_changes`, `webhook.py` 42-73)

The primary grammar is the Python regex
`===FILE:\s*(.+?)\s*===\n(.*?)===END FILE===` compiled with `re.DOTALL`
and scanned with `re.finditer`.  The matcher below implements exactly that
regex's backtracking semantics: literals match literally, `\s*` is greedy
(longest alternative first), `(.+?)`/`(.*?)` are lazy (shortest first, and
under DOTALL `.` matches every character including newlines), and the first
complete match in that priority order wins; `finditer` returns successive
non-overlapping leftmost matches. -/

/-- Whitespace for Python's `\s` (and `str.strip`) on `str` patterns. -/
def isWS (c : Char) : Bool :=
  c = ' ' ∨ c = '\t' ∨ c = '\n' ∨ c = '\r' ∨ c = '\x0b' ∨ c = '\x0c' ∨
    c = '\x1c' ∨ c = '\x1d' ∨ c = '\x1e' ∨ c = '\x1f' ∨ c = '\x85' ∨ c = '\xa0' ∨
    c = ' ' ∨ (0x2000 ≤ c.val.toNat ∧ c.val.toNat ≤ 0x200a) ∨
    c = ' ' ∨ c = ' ' ∨ c = ' ' ∨ c = ' ' ∨ c = '　'

/-- Python's `str.strip()`: remove leading and trailing whitespace. -/
def pyStrip (s : Str) : Str :=
  ((s.dropWhile isWS).reverse.dropWhile isWS).reverse

/-- The alternatives explored by a greedy `\s*` at `s`, as the remainders
after the consumed whitespace run, longest consumption first (the order in
which backtracking explores them). -/
def wsSplits : Str → List Str
  | [] => [[]]
  | c :: rest =>
    if isWS c then wsSplits rest ++ [c :: rest] else [c :: rest]

/-- The alternatives explored by a lazy `(.+?)` under DOTALL at `s`:
(group, remainder) after consuming 1, 2, … characters, shortest first. -/
def oneSplits : Str → List (Str × Str)
  | [] => []
  | c :: rest => ([c], rest) :: (oneSplits rest).map fun g => (c :: g.1, g.2)

/-- The alternatives explored by a lazy `(.*?)` under DOTALL at `s`:
(group, remainder) after consuming 0, 1, … characters, shortest first. -/
def zeroSplits (s : Str) : List (Str × Str) :=
  ([], s) :: oneSplits s

def litFILE : Str := "===FILE:".data

def litEQN : Str := "===\n".data

def litEND : Str := "===END FILE===".data

/-- The trailing literal of the pattern: `(.*?)` has yielded group `g2s.1`;
the match succeeds if `===END FILE===` follows, leaving the remainder after
it. -/
def endCheck (g1 : Str) (g2s : Str × Str) : Option (Str × Str × Str) :=
  if litEND.isPrefixOf g2s.2 then some (g1, g2s.1, g2s.2.drop litEND.length)
  else none

/-- `===\n` must follow the second `\s*`; then the lazy `(.*?)` explores its
alternatives shortest-first. -/
def eqnCheck (g1 : Str) (s3 : Str) : Option (Str × Str × Str) :=
  if litEQN.isPrefixOf s3 then
    (zeroSplits (s3.drop litEQN.length)).findSome? (endCheck g1)
  else none

/-- After `(.+?)` has yielded group `g1s.1`, match `\s*===\n(.*?)===END
FILE===` on the remainder, greedy `\s*` longest-first. -/
def tailMatch (g1s : Str × Str) : Option (Str × Str × Str) :=
  (wsSplits g1s.2).findSome? (eqnCheck g1s.1)

/-- Backtracking match of `\s*(.+?)\s*===\n(.*?)===END FILE===` anchored at
the start of `s` (the text right after a matched `===FILE:` literal), with
the regex engine's priorities.  Returns `(group1, group2, remainder)` of the
first successful alternative, `none` if every alternative fails. -/
def matchCore (s : Str) : Option (Str × Str × Str) :=
  (wsSplits s).findSome? fun s1 => (oneSplits s1).findSome? tailMatch

/-- `re.finditer` over the block regex: scan left to right; at each position
where the literal `===FILE:` matches, attempt the rest of the pattern, emit
the groups on success and resume after the match; otherwise advance one
character.  `fuel` bounds the scan (it is called with the input length). -/
def findIterAux : Nat → Str → List (Str × Str)
  | 0, _ => []
  | _ + 1, [] => []
  | fuel + 1, c :: rest =>
    if litFILE.isPrefixOf (c :: rest) then
      match matchCore ((c :: rest).drop litFILE.length) with
      | some (g1, g2, after) => (g1, g2) :: findIterAux fuel after
      | none => findIterAux fuel rest
    else findIterAux fuel rest

/-- All matches of the block regex in `s`, in order of appearance. -/
def findIter (s : Str) : List (Str × Str) := findIterAux s.length s

/-- A Python value as produced by `json.loads`: `None`, booleans, numbers
(kept as their source lexeme — no numeric claim depends on their value),
strings, lists and string-keyed dicts. -/
inductive PyVal where
  | null
  | bool (b : Bool)
  | num (lexeme : Str)
  | str (s : Str)
  | arr (xs : List PyVal)
  | dict (kvs : List (Str × PyVal))
deriving Repr

/-- Python dict indexing; JSON objects with duplicate keys keep the last
occurrence, as `json.loads` does. -/
def lookupKey (kvs : List (Str × PyVal)) (k : Str) : Option PyVal :=
  (kvs.reverse.find? fun kv => kv.1 = k).map (·.2)

/-- Whitespace skipped between JSON tokens. -/
def jsonWS (c : Char) : Bool :=
  c = ' ' ∨ c = '\t' ∨ c = '\n' ∨ c = '\r'

def skipWS (s : Str) : Str := s.dropWhile jsonWS

/-- Body of a JSON string after the opening quote: strict mode (raw control
characters rejected), with the standard escapes.  Returns (content, rest
after the closing quote). -/
def parseStringBody : Nat → Str → Str → Option (Str × Str)
  | 0, _, _ => none
  | _ + 1, [], _ => none
  | fuel + 1, c :: rest, acc =>
    if c = '"' then some (acc, rest)
    else if c = '\\' then
      match rest with
      | [] => none
      | e :: rest2 =>
        if e = '"' then parseStringBody fuel rest2 (acc ++ ['"'])
        else if e = '\\' then parseStringBody fuel rest2 (acc ++ ['\\'])
        else if e = '/' then parseStringBody fuel rest2 (acc ++ ['/'])
        else if e = 'b' then parseStringBody fuel rest2 (acc ++ ['\x08'])
        else if e = 'f' then parseStringBody fuel rest2 (acc ++ ['\x0c'])
        else if e = 'n' then parseStringBody fuel rest2 (acc ++ ['\n'])
        else if e = 'r' then parseStringBody fuel rest2 (acc ++ ['\r'])
        else if e = 't' then parseStringBody fuel rest2 (acc ++ ['\t'])
        else if e = 'u' then
          match rest2 with
          | h1 :: h2 :: h3 :: h4 :: rest3 =>
            if isHex h1 ∧ isHex h2 ∧ isHex h3 ∧ isHex h4 then
              let v := 4096 * hexVal h1 + 256 * hexVal h2 + 16 * hexVal h3 + hexVal h4
              parseStringBody fuel rest3 (acc ++ [Char.ofNat v])
            else none
          | _ => none
        else none
    else if c.toNat < 0x20 then none
    else parseStringBody fuel rest (acc ++ [c])
where
  isHex (c : Char) : Bool :=
    c.isDigit ∨ ('a' ≤ c ∧ c ≤ 'f') ∨ ('A' ≤ c ∧ c ≤ 'F')
  hexVal (c : Char) : Nat :=
    if c.isDigit then c.toNat - '0'.toNat
    else if 'a' ≤ c ∧ c ≤ 'f' then c.toNat - 'a'.toNat + 10
    else c.toNat - 'A'.toNat + 10

/-- A JSON number lexeme at the head of `s`, per the strict grammar
`-?(0|[1-9][0-9]*)(\.[0-9]+)?([eE][-+]?[0-9]+)?`.  Returns (lexeme, rest). -/
def parseNumber (s : Str) : Option (Str × Str) :=
  let (neg, s1) : Str × Str := match s with
    | '-' :: r => (['-'], r)
    | _ => ([], s)
  match s1 with
  | [] => none
  | c :: r =>
    if c = '0' then some (parseTail (neg ++ ['0']) r)
    else if c.isDigit then
      some (parseTail (neg ++ [c] ++ r.takeWhile (·.isDigit)) (r.dropWhile (·.isDigit)))
    else none
where
  parseTail (intPart : Str) (r : Str) : Str × Str :=
    let (frac, r2) : Str × Str := match r with
      | '.' :: d :: rest =>
        if d.isDigit then
          ('.' :: d :: rest.takeWhile (·.isDigit), rest.dropWhile (·.isDigit))
        else ([], r)
      | _ => ([], r)
    let (ex, r3) : Str × Str := match r2 with
      | e :: '+' :: d :: rest =>
        if (e = 'e' ∨ e = 'E') ∧ d.isDigit then
          (e :: '+' :: d :: rest.takeWhile (·.isDigit), rest.dropWhile (·.isDigit))
        else ([], r2)
      | e :: '-' :: d :: rest =>
        if (e = 'e' ∨ e = 'E') ∧ d.isDigit then
          (e :: '-' :: d :: rest.takeWhile (·.isDigit), rest.dropWhile (·.isDigit))
        else ([], r2)
      | e :: d :: rest =>
        if (e = 'e' ∨ e = 'E') ∧ d.isDigit then
          (e :: d :: rest.takeWhile (·.isDigit), rest.dropWhile (·.isDigit))
        else ([], r2)
      | _ => ([], r2)
    (intPart ++ frac ++ ex, r3)

mutual

/-- A JSON value at the head of `s` (leading whitespace skipped), following
Python's `json.loads` (which additionally accepts the `NaN`/`Infinity`
constants).  Returns (value, rest). -/
def parseVal : Nat → Str → Option (PyVal × Str)
  | 0, _ => none
  | fuel + 1, s0 =>
    let s := skipWS s0
    match s with
    | '"' :: rest =>
      match parseStringBody (rest.length + 1) rest [] with
      | some (content, r) => some (.str content, r)
      | none => none
    | '{' :: rest =>
      match skipWS rest with
      | '}' :: r => some (.dict [], r)
      | _ => match parseObjItems fuel rest [] with
        | some (kvs, r) => some (.dict kvs, r)
        | none => none
    | '[' :: rest =>
      match skipWS rest with
      | ']' :: r => some (.arr [], r)
      | _ => match parseArrItems fuel rest [] with
        | some (xs, r) => some (.arr xs, r)
        | none => none
    | 't' :: rest =>
      if "rue".data.isPrefixOf rest then some (.bool true, rest.drop 3) else none
    | 'f' :: rest =>
      if "alse".data.isPrefixOf rest then some (.bool false, rest.drop 4) else none
    | 'n' :: rest =>
      if "ull".data.isPrefixOf rest then some (.null, rest.drop 3) else none
    | 'N' :: rest =>
      if "aN".data.isPrefixOf rest then some (.num "NaN".data, rest.drop 2) else none
    | 'I' :: rest =>
      if "nfinity".data.isPrefixOf rest then
        some (.num "Infinity".data, rest.drop 7)
      else none
    | '-' :: 'I' :: rest =>
      if "nfinity".data.isPrefixOf rest then
        some (.num "-Infinity".data, rest.drop 7)
      else none
    | _ =>
      match parseNumber s with
      | some (lex, r) => some (.num lex, r)
      | none => none

/-- The members of a JSON object after `{` (at least one member). -/
def parseObjItems : Nat → Str → List (Str × PyVal) → Option (List (Str × PyVal) × Str)
  | 0, _, _ => none
  | fuel + 1, s, acc =>
    match skipWS s with
    | '"' :: rest =>
      match parseStringBody (rest.length + 1) rest [] with
      | some (key, r) =>
        match skipWS r with
        | ':' :: r2 =>
          match parseVal fuel r2 with
          | some (v, r3) =>
            match skipWS r3 with
            | ',' :: r4 => parseObjItems fuel r4 (acc ++ [(key, v)])
            | '}' :: r4 => some (acc ++ [(key, v)], r4)
            | _ => none
          | none => none
        | _ => none
      | none => none
    | _ => none

/-- The items of a JSON array after `[` (at least one item). -/
def parseArrItems : Nat → Str → List PyVal → Option (List PyVal × Str)
  | 0, _, _ => none
  | fuel + 1, s, acc =>
    match parseVal fuel s with
    | some (v, r) =>
      match skipWS r with
      | ',' :: r2 => parseArrItems fuel r2 (acc ++ [v])
      | ']' :: r2 => some (acc ++ [v], r2)
      | _ => none
    | none => none

end

/-- Python's `json.loads`: parse one JSON document, requiring only trailing
whitespace after it; `none` models a raised `JSONDecodeError`. -/
def json_loads (s : Str) : Option PyVal :=
  match parseVal (s.length + 1) s with
  | some (v, rest) => if skipWS rest = [] then some v else none
  | none => none

/-- One `{"path": …, "content": …}` element of the crew output dicts. -/
structure FileChange where
  path : PyVal
  content : PyVal
deriving Repr

/-- Shorthand for the dicts built by the primary grammar pass, whose values
are always strings. -/
def FileChange.ofStr (p c : Str) : FileChange := ⟨.str p, .str c⟩

/-- `f["path"]` / `f["content"]` for one element of the `files` list.
`none` models the `KeyError`/`TypeError` raised when `f` is not a dict or
lacks one of the keys (caught by the caller, aborting the loop). -/
def fileEntry (f : PyVal) : Option (PyVal × PyVal) :=
  match f with
  | .dict kvs =>
    match lookupKey kvs "path".data, lookupKey kvs "content".data with
    | some p, some c => some (p, c)
    | _, _ => none
  | _ => none

/-- The `for f in parsed["files"]` loop of the JSON fallback: appends one
change per element until the first element that raises, keeping the changes
appended so far (the exception is caught around the whole loop). -/
def collectArr : List PyVal → List FileChange
  | [] => []
  | f :: rest =>
    match fileEntry f with
    | some (p, c) => ⟨p, c⟩ :: collectArr rest
    | none => []

/-- Iterating `parsed["files"]`: a list iterates its elements; iterating a
string or a dict yields strings (characters / keys), so the first indexing
raises `TypeError` and zero changes survive (also for the empty ones);
a non-iterable value raises immediately. -/
def collectFiles : PyVal → List FileChange
  | .arr xs => collectArr xs
  | _ => []

/-- `parse_file_changes` (`webhook.py` 42-73): the primary regex pass over
the crew output; if it produced no changes, the JSON fallback
`{"files": [{"path": …, "content": …}, …]}` with all exceptions caught. -/
def parse_file_changes (crew_output : Str) : List FileChange :=
  let changes := (findIter crew_output).filterMap fun m =>
    let path := pyStrip m.1
    let content := pyStrip m.2
    if path ≠ [] ∧ content ≠ [] then some (FileChange.ofStr path content) else none
  match changes with
  | _ :: _ => changes
  | [] =>
    match json_loads crew_output with
    | some (.dict kvs) =>
      match lookupKey kvs "files".data with
      | some files => collectFiles files
      | none => []
    | _ => []

/-! ### The pipeline orchestrator (`process_push`, `webhook.py` 78-335)

The external calls made by one pipeline run are modelled by a `ProcEnv`
record holding each call's result, and the run's observable effect is the
ordered list of mutating host/store calls it issues (its `Action` trace). -/

/-- An open pull request as consumed by `get_open_fix_prs`
(`pr["number"]`, `pr.get("head", {}).get("ref", "")`, `pr.get("html_url", "")`). -/
structure PullReq where
  number : Nat
  head_ref : Str
  html_url : Str
deriving DecidableEq, Repr

/-- `GitHubService.get_open_fix_prs` (source lines 325-338): list the open
PRs against the base branch and keep those whose head branch starts with
`fix/ci-`; a non-200 listing response (`resp = none`) yields `[]`. -/
def get_open_fix_prs (resp : Option (List PullReq)) : List PullReq :=
  match resp with
  | none => []
  | some prs => prs.filter fun pr => "fix/ci-".data.isPrefixOf pr.head_ref

/-- One entry of the `get_repo_tree` result: a code file's path and its
reported blob size. -/
structure TreeFile where
  path : Str
  size : Nat
deriving DecidableEq, Repr

/-- The source-bundling loop of `process_push` (source lines 148-163).
State: remaining files, running `total_len`, accumulated parts, and (as
instrumentation) the fetched paths each paired with the value of
`total_len` at the moment of its fetch. -/
def buildSourceGo (fileContent : Str → Option Str) :
    List TreeFile → Nat → List Str → List (Str × Nat) → List Str × List (Str × Nat)
  | [], _, parts, fetched => (parts, fetched)
  | f :: rest, total_len, parts, fetched =>
    if total_len ≥ 30000 then (parts, fetched)
    else if f.size > 50000 then buildSourceGo fileContent rest total_len parts fetched
    else
      match fileContent f.path with
      | some content =>
        let part := "--- ".data ++ f.path ++ " ---\n".data ++ content
        buildSourceGo fileContent rest (total_len + part.length) (parts ++ [part])
          (fetched ++ [(f.path, total_len)])
      | none => buildSourceGo fileContent rest total_len parts (fetched ++ [(f.path, total_len)])

/-- The `source_code` string assembled by `process_push` together with the
fetch instrumentation. -/
def buildSource (repoFiles : List TreeFile) (fileContent : Str → Option Str) :
    Str × List (Str × Nat) :=
  let r := buildSourceGo fileContent repoFiles 0 [] []
  (joinSep "\n\n".data r.1, r.2)

/-- A past fix document returned by the fix-memory search (the fields read
when building `past_fixes_text`; the stored changed-file dicts are reduced
to their path strings, which is all that rendering uses). -/
structure PastFix where
  repo : Str
  head_sha : Str
  pr_url : Str
  analysis : Str
  changedPaths : List Str
deriving DecidableEq, Repr

/-- The `past_fixes_text` rendering loop of `process_push` (lines 170-181). -/
def pastFixesText (similar : List PastFix) : Str :=
  joinSep "\n\n".data (similar.enum.map fun ifix =>
    "### Past Fix #".data ++ natStr (ifix.1 + 1) ++ " (repo: ".data ++ ifix.2.repo ++
      ", sha: ".data ++ ifix.2.head_sha.take 7 ++ ", PR: ".data ++ ifix.2.pr_url ++
      ")\n**Analysis:** ".data ++ ifix.2.analysis.take 1500 ++
      "\n**Files changed:** ".data ++ joinSep ", ".data ifix.2.changedPaths)

/-- A mutating host/store call issued by the pipeline, in issue order. -/
inductive Action where
  | commentPr (number : Nat)
  | createBranch (name : Str)
  | commitFile (path : PyVal)
  | createPr (head : Str) (base : Str)
  | storeFix
  | closePr (number : Nat)
deriving Repr

def Action.isCreateBranch : Action → Bool
  | .createBranch _ => true
  | _ => false

def Action.isCreatePr : Action → Bool
  | .createPr _ _ => true
  | _ => false

def Action.isCommitFile : Action → Bool
  | .commitFile _ => true
  | _ => false

def Action.isStoreFix : Action → Bool
  | .storeFix => true
  | _ => false

def Action.isClosePr : Action → Bool
  | .closePr _ => true
  | _ => false

def Action.isCommentPr : Action → Bool
  | .commentPr _ => true
  | _ => false

/-- The results of the external calls one `process_push` run can make.
Fallible calls are `Except Unit` (an `error` is a raised exception, caught
where the source catches it); `pullsResp = none` is a non-200 listing. -/
structure ProcEnv where
  ciResult : CiResult
  default_branch : Str
  pullsResp : Option (List PullReq)
  runLogs : Nat → Except Unit Str
  repoFiles : List TreeFile
  fileContent : Str → Option Str
  esSearch : Except Unit (List PastFix)
  crewResult : List (Str × Str) → Except Unit Str
  branchCreate : Except Unit Unit
  commitOk : Nat → Except Unit Unit
  prCreate : Except Unit Str
  storeOk : Except Unit Unit

/-- `_close_stale_fix_prs` (source lines 288-312): for every open `fix/ci-*`
PR against the default branch, post an explanatory comment and patch the PR
to state `closed`. -/
def close_stale_fix_prs (env : ProcEnv) : List Action :=
  (get_open_fix_prs env.pullsResp).flatMap fun pr =>
    [Action.commentPr pr.number, Action.closePr pr.number]

/-- The advisory fallback change synthesized by `process_push` when the
parser yields no edits (source lines 207-214). -/
def advisoryChange (first_run_id : Str) (crew_output : Str) : FileChange :=
  FileChange.ofStr
    ("fixes/ci-fix-".data ++ first_run_id ++ ".md".data)
    ("# CI Fix Suggestion (run ".data ++ first_run_id ++ ")\n\n".data ++ crew_output)

/-- `first_run_id` as computed in `process_push` line 205: the first failed
run's id, or the 7-character short SHA when no failed run is available. -/
def firstRunId (failed_runs : List FailedRun) (head_sha : Str) : Str :=
  match failed_runs with
  | r :: _ => natStr r.id
  | [] => head_sha.take 7

/-- The `file_changes` list handed to the commit loop: the parsed changes,
or the single advisory change when parsing yielded none. -/
def resolvedChanges (crew_output : Str) (failed_runs : List FailedRun)
    (head_sha : Str) : List FileChange :=
  match parse_file_changes crew_output with
  | [] => [advisoryChange (firstRunId failed_runs head_sha) crew_output]
  | changes => changes

/-- `process_push` (`webhook.py` 78-283), as the trace of mutating calls it
issues given the environment's call results. -/
def process_push (repo head_sha _branch _pusher : Str) (env : ProcEnv) : List Action :=
  let ci := env.ciResult
  if ci.status = "success".data then
    close_stale_fix_prs env
  else if ci.status = "no_ci".data then []
  else if ci.status = "timeout".data then []
  else
    let failed_runs := ci.failed_runs
    let default_branch := env.default_branch
    match get_open_fix_prs env.pullsResp with
    | pr :: _ => [Action.commentPr pr.number]
    | [] =>
      let log_parts := failed_runs.foldl (fun acc run =>
        match env.runLogs run.id with
        | .ok run_logs =>
          if run_logs ≠ [] then
            acc ++ ["## Workflow: ".data ++ run.name ++ "  (run ".data ++ natStr run.id ++
              ")\nURL: ".data ++ run.html_url ++ "\n\n".data ++ run_logs]
          else acc
        | .error _ => acc) []
      let ci_logs := match log_parts with
        | [] => "No detailed failure logs available".data
        | _ => joinSep "\n\n".data log_parts
      let file_tree := joinSep "\n".data (env.repoFiles.map (·.path))
      let source_code := (buildSource env.repoFiles env.fileContent).1
      let past_fixes_text := match env.esSearch with
        | .ok similar => match similar with
          | [] => []
          | _ => pastFixesText similar
        | .error _ => []
      let inputs : List (Str × Str) :=
        [("ci_logs".data, ci_logs),
         ("repo_name".data, repo),
         ("file_tree".data, file_tree),
         ("source_code".data, source_code),
         ("past_fixes".data,
           match past_fixes_text with
           | [] => "No similar past fixes found.".data
           | t => t)]
      match env.crewResult inputs with
      | .error _ => []
      | .ok crew_output =>
        let file_changes := resolvedChanges crew_output failed_runs head_sha
        let fix_branch := "fix/ci-".data ++ head_sha.take 7
        Action.createBranch fix_branch ::
          (match env.branchCreate with
           | .error _ => []
           | .ok _ =>
             let commitActs := file_changes.map fun change => Action.commitFile change.path
             let committed := file_changes.enum.filterMap fun ic =>
               match env.commitOk ic.1 with
               | .ok _ => some ic.2.path
               | .error _ => none
             commitActs ++
               (match committed with
                | [] => []
                | _ =>
                  Action.createPr fix_branch default_branch ::
                    (match env.prCreate with
                     | .error _ => []
                     | .ok _ => [Action.storeFix])))

/-- The claim-side description of the failed-run subset: the runs whose
conclusion lies in `{failure, timed_out, cancelled}`, in host order, each
projected to `{id, name, html_url, conclusion}`. -/
def claimFailedRuns (runs : List WorkflowRun) : List FailedRun :=
  (runs.filter fun r =>
      r.conclusion = some "failure".data ∨ r.conclusion = some "timed_out".data ∨
        r.conclusion = some "cancelled".data).map
    fun r => ⟨r.id, r.name.getD [], r.html_url.getD [], r.conclusion.getD []⟩

/-- A benign concrete environment used by the witnesses: CI failed with one
failed run, no open pull requests, and every subsequent call succeeds. -/
def sampleEnv : ProcEnv where
  ciResult := ⟨"failure".data, [⟨101, "build".data, "url".data, "failure".data⟩], []⟩
  default_branch := "main".data
  pullsResp := some []
  runLogs := fun _ => .ok "log".data
  repoFiles := []
  fileContent := fun _ => none
  esSearch := .ok []
  crewResult := fun _ => .ok "report".data
  branchCreate := .ok ()
  commitOk := fun _ => .ok ()
  prCreate := .ok "purl".data
  storeOk := .ok ()

/-- The claim-side rendering of one well-formed block of the primary
grammar. -/
def renderBlock (p c : Str) : Str :=
  "===FILE: ".data ++ p ++ "===\n".data ++ c ++ "\n===END FILE===".data

/-- A report text consisting of blocks separated by newlines. -/
def renderBlocks (bs : List (Str × Str)) : Str :=
  joinSep "\n".data (bs.map fun b => renderBlock b.1 b.2)

theorem failedOf_eq_claim (runs : List WorkflowRun) :
    failedOf runs = claimFailedRuns runs := by
  induction runs with
  | nil => rfl
  | cons r rest ih =>
    simp only [failedOf, claimFailedRuns, List.filterMap_cons, List.filter_cons] at *
    by_cases h : badConclusion r.conclusion
    · have h2 : (r.conclusion = some "failure".data ∨ r.conclusion = some "timed_out".data ∨
          r.conclusion = some "cancelled".data) := by
        cases hc : r.conclusion with
        | none => rw [hc] at h; simp [badConclusion] at h
        | some c =>
          rw [hc] at h
          simp only [badConclusion, decide_eq_true_eq] at h
          rcases h with h | h | h <;> simp [h]
      simp [h, h2, ih]
    · have h2 : ¬ (r.conclusion = some "failure".data ∨ r.conclusion = some "timed_out".data ∨
          r.conclusion = some "cancelled".data) := by
        intro hc
        apply h
        rcases hc with hc | hc | hc <;> simp [badConclusion, hc]
      simp [h, h2, ih]

theorem wait_for_ci_skip (deadline : Nat) (pre l : List (Nat × List WorkflowRun))
    (hpre : ∀ p ∈ pre, ciPoll deadline p = none) :
    wait_for_ci deadline (pre ++ l) = wait_for_ci deadline l := by
  induction pre with
  | nil => rfl
  | cons p rest ih =>
    have hp := hpre p (by simp)
    simp only [List.cons_append, wait_for_ci, hp]
    exact ih fun q hq => hpre q (by simp [hq])

/-- C1: for every `(repo, headSha)` polling trace, `wait_for_ci` classifies as
follows.  If a poll (the first deciding one, after any number of non-deciding
polls `pre`) observes a non-empty run list in which every run has status
`completed`, it returns outcome `failure` carrying exactly those runs whose
conclusion is in `{failure, timed_out, cancelled}` — each projected to
`{id, name, html_url, conclusion}`, in host-returned order — and outcome
`success` when no run has such a conclusion; if the run list is empty and the
deadline has passed it returns `no_ci`; if runs exist but not all are
`completed` when the deadline passes it returns `timeout`. -/
theorem wait_for_ci_classification (deadline now : Nat)
    (pre rest : List (Nat × List WorkflowRun)) (runs : List WorkflowRun)
    (hpre : ∀ p ∈ pre, ciPoll deadline p = none) :
    (runs ≠ [] → (∀ r ∈ runs, r.status = some "completed".data) →
      wait_for_ci deadline (pre ++ (now, runs) :: rest) =
        some { status :=
                 if runs.any (fun r =>
                     r.conclusion = some "failure".data ∨
                       r.conclusion = some "timed_out".data ∨
                       r.conclusion = some "cancelled".data)
                 then "failure".data else "success".data
               failed_runs := claimFailedRuns runs
               all_runs := runs }) ∧
    (runs = [] → now ≥ deadline →
      wait_for_ci deadline (pre ++ (now, runs) :: rest) = some ⟨"no_ci".data, [], []⟩) ∧
    (runs ≠ [] → ¬ (∀ r ∈ runs, r.status = some "completed".data) → now ≥ deadline →
      wait_for_ci deadline (pre ++ (now, runs) :: rest) = some ⟨"timeout".data, [], runs⟩) := by
  rw [wait_for_ci_skip deadline pre _ hpre]
  refine ⟨fun hne hall => ?_, fun hnil hdl => ?_, fun hne hnall hdl => ?_⟩
  · have hempty : runs.isEmpty = false := by
      cases runs with
      | nil => exact absurd rfl hne
      | cons a l => rfl
    have hcompl : runs.all runCompleted = true := by
      rw [List.all_eq_true]
      intro r hr
      simp [runCompleted, hall r hr]
    have hfilt : ∀ (l : List WorkflowRun) (p : WorkflowRun → Bool),
        (l.filter p).isEmpty = !(l.any p) := by
      intro l p
      induction l with
      | nil => rfl
      | cons a t ih =>
        by_cases h : p a <;> simp [List.filter_cons, List.any_cons, h, ih]
    have hmapE : ∀ (l : List WorkflowRun) (f : WorkflowRun → FailedRun),
        (l.map f).isEmpty = l.isEmpty := by
      intro l f; cases l <;> rfl
    simp only [wait_for_ci, ciPoll, hempty, Bool.false_eq_true, if_false, hcompl, if_true]
    have he : (failedOf runs).isEmpty =
        !(runs.any fun r =>
          r.conclusion = some "failure".data ∨
            r.conclusion = some "timed_out".data ∨
            r.conclusion = some "cancelled".data) := by
      rw [failedOf_eq_claim]
      show ((List.filter _ runs).map _).isEmpty = _
      rw [hmapE, hfilt]
    have hstat : (classifyRuns runs).status =
        (if runs.any (fun r =>
            r.conclusion = some "failure".data ∨
              r.conclusion = some "timed_out".data ∨
              r.conclusion = some "cancelled".data)
         then "failure".data else "success".data) := by
      show (if (failedOf runs).isEmpty then "success".data else "failure".data) = _
      rw [he]
      cases runs.any fun r =>
          r.conclusion = some "failure".data ∨
            r.conclusion = some "timed_out".data ∨
            r.conclusion = some "cancelled".data <;> rfl
    have hfail : (classifyRuns runs).failed_runs = claimFailedRuns runs :=
      failedOf_eq_claim runs
    have hall2 : (classifyRuns runs).all_runs = runs := rfl
    congr 1
    have heta : classifyRuns runs =
        ⟨(classifyRuns runs).status, (classifyRuns runs).failed_runs,
          (classifyRuns runs).all_runs⟩ := rfl
    rw [heta, hstat, hfail, hall2]
  · subst hnil
    simp [wait_for_ci, ciPoll, hdl]
  · have hempty : runs.isEmpty = false := by
      cases runs with
      | nil => exact absurd rfl hne
      | cons a l => rfl
    have hcompl : runs.all runCompleted = false := by
      rw [Bool.eq_false_iff]
      intro h
      rw [List.all_eq_true] at h
      exact hnall fun r hr => by simpa [runCompleted] using h r hr
    simp [wait_for_ci, ciPoll, hempty, hcompl, hdl]

/-- Witness for C1: concrete traces exercising the failure, no-ci and timeout
classifications of `wait_for_ci`. -/
theorem wait_for_ci_classification_witness :
    (wait_for_ci 100
      [(0, []),
       (20, [⟨1, some "build".data, some "u".data, some "completed".data, some "failure".data⟩,
             ⟨2, some "lint".data, some "v".data, some "completed".data, some "success".data⟩])]
      = some ⟨"failure".data, [⟨1, "build".data, "u".data, "failure".data⟩],
          [⟨1, some "build".data, some "u".data, some "completed".data, some "failure".data⟩,
           ⟨2, some "lint".data, some "v".data, some "completed".data, some "success".data⟩]⟩) ∧
    (wait_for_ci 100 [(0, []), (120, [])] = some ⟨"no_ci".data, [], []⟩) ∧
    (wait_for_ci 100
      [(0, [⟨1, none, none, some "queued".data, none⟩]),
       (120, [⟨1, none, none, some "queued".data, none⟩])]
      = some ⟨"timeout".data, [], [⟨1, none, none, some "queued".data, none⟩]⟩) := by
  refine ⟨?_, ?_, ?_⟩
  · have h := (wait_for_ci_classification 100 20 [(0, [])] []
      [⟨1, some "build".data, some "u".data, some "completed".data, some "failure".data⟩,
       ⟨2, some "lint".data, some "v".data, some "completed".data, some "success".data⟩]
      (by decide)).1 (by decide) (by decide)
    exact h.trans (by decide)
  · exact (wait_for_ci_classification 100 120 [(0, [])] [] [] (by decide)).2.1 rfl (by decide)
  · have h := (wait_for_ci_classification 100 120
      [(0, [⟨1, none, none, some "queued".data, none⟩])] []
      [⟨1, none, none, some "queued".data, none⟩] (by decide)).2.2 (by decide) (by decide)
      (by decide)
    exact h

/-! ### Lemmas about the regex matcher -/

theorem findSome?_cons_some {α β : Type} {f : α → Option β} {a : α} {l : List α} {b : β}
    (h : f a = some b) : (a :: l).findSome? f = some b := by
  simp [List.findSome?_cons, h]

theorem findSome?_cons_none {α β : Type} {f : α → Option β} {a : α} {l : List α}
    (h : f a = none) : (a :: l).findSome? f = l.findSome? f := by
  simp [List.findSome?_cons, h]

theorem findSome?_eq_none_of_all {α β : Type} {f : α → Option β} {l : List α}
    (h : ∀ a ∈ l, f a = none) : l.findSome? f = none := by
  induction l with
  | nil => rfl
  | cons a t ih =>
    rw [findSome?_cons_none (h a (by simp))]
    exact ih fun x hx => h x (by simp [hx])

theorem findSome?_map_eq {α β γ : Type} (g : α → γ) (f : γ → Option β) (l : List α) :
    (l.map g).findSome? f = l.findSome? fun a => f (g a) := by
  induction l with
  | nil => rfl
  | cons a t ih =>
    rw [List.map_cons]
    cases h : f (g a) with
    | some b =>
      have l1 : List.findSome? f (g a :: List.map g t) = some b := findSome?_cons_some h
      have l2 : List.findSome? (fun a => f (g a)) (a :: t) = some b := findSome?_cons_some h
      rw [l1, l2]
    | none =>
      have l1 : List.findSome? f (g a :: List.map g t) = List.findSome? f (List.map g t) :=
        findSome?_cons_none h
      have l2 : List.findSome? (fun a => f (g a)) (a :: t) =
          List.findSome? (fun a => f (g a)) t := findSome?_cons_none h
      rw [l1, l2, ih]

theorem findSome?_mem {α β : Type} {f : α → Option β} {l : List α} {b : β}
    (h : l.findSome? f = some b) : ∃ a ∈ l, f a = some b := by
  induction l with
  | nil => simp [List.findSome?_nil] at h
  | cons a t ih =>
    cases ha : f a with
    | some c =>
      rw [findSome?_cons_some ha] at h
      exact ⟨a, by simp, by rw [ha, h]⟩
    | none =>
      rw [findSome?_cons_none ha] at h
      obtain ⟨x, hx, hfx⟩ := ih h
      exact ⟨x, by simp [hx], hfx⟩

theorem wsSplits_head_of_allWS (w y : Str) (hw : ∀ x ∈ w, isWS x)
    (hy : ∀ a, y.head? = some a → ¬ isWS a) :
    ∃ junk, wsSplits (w ++ y) = y :: junk := by
  induction w with
  | nil =>
    cases y with
    | nil => exact ⟨[], rfl⟩
    | cons a t =>
      have : isWS a = false := by
        have := hy a rfl
        simpa using this
      exact ⟨[], by simp [wsSplits, this]⟩
  | cons c w' ih =>
    have hc : isWS c = true := hw c (by simp)
    obtain ⟨junk, hj⟩ := ih fun x hx => hw x (by simp [hx])
    exact ⟨junk ++ [c :: (w' ++ y)], by simp [wsSplits, hc, hj]⟩

theorem wsSplits_mem (s : Str) (x : Str) (hx : x ∈ wsSplits s) :
    ∃ w, s = w ++ x ∧ ∀ a ∈ w, isWS a := by
  induction s generalizing x with
  | nil =>
    simp [wsSplits] at hx
    exact ⟨[], by simp [hx]⟩
  | cons c rest ih =>
    by_cases hc : isWS c
    · rw [wsSplits, if_pos hc] at hx
      rcases List.mem_append.1 hx with h | h
      · obtain ⟨w, hw, hws⟩ := ih x h
        exact ⟨c :: w, by simp [hw], fun a ha => by
          rcases List.mem_cons.1 ha with rfl | ha
          · exact hc
          · exact hws a ha⟩
      · simp at h
        exact ⟨[], by simp [h]⟩
    · rw [wsSplits, if_neg hc] at hx
      simp at hx
      exact ⟨[], by simp [hx]⟩

theorem oneSplits_mem (s : Str) (g : Str × Str) (hg : g ∈ oneSplits s) :
    s = g.1 ++ g.2 ∧ g.1 ≠ [] := by
  induction s generalizing g with
  | nil => simp [oneSplits] at hg
  | cons c rest ih =>
    rw [oneSplits] at hg
    rcases List.mem_cons.1 hg with rfl | hg
    · exact ⟨rfl, by simp⟩
    · obtain ⟨g', hg', rfl⟩ := List.mem_map.1 hg
      obtain ⟨h1, h2⟩ := ih g' hg'
      exact ⟨by simp [← h1], by simp⟩

theorem oneSplits_cons_as_map (d : Char) (x : Str) :
    oneSplits (d :: x) = (zeroSplits x).map fun g => (d :: g.1, g.2) := by
  rw [oneSplits, zeroSplits, List.map_cons]

theorem oneSplits_findSome {β : Type} (F : Str × Str → Option β) (core R : Str) (v : β)
    (hne : core ≠ [])
    (hnone : ∀ c1 c2, core = c1 ++ c2 → c1 ≠ [] → c2 ≠ [] → F (c1, c2 ++ R) = none)
    (hsome : F (core, R) = some v) :
    (oneSplits (core ++ R)).findSome? F = some v := by
  induction core generalizing F with
  | nil => exact absurd rfl hne
  | cons d core' ih =>
    cases core' with
    | nil =>
      show (oneSplits (d :: R)).findSome? F = some v
      rw [oneSplits]
      exact findSome?_cons_some (by simpa using hsome)
    | cons e core'' =>
      have h0 : F ([d], (e :: core'') ++ R) = none :=
        hnone [d] (e :: core'') rfl (by simp) (by simp)
      calc ((oneSplits ((d :: e :: core'') ++ R)).findSome? F)
          = (oneSplits (d :: ((e :: core'') ++ R))).findSome? F := rfl
        _ = ((zeroSplits ((e :: core'') ++ R)).map fun g => (d :: g.1, g.2)).findSome? F := by
            rw [oneSplits_cons_as_map]
        _ = (zeroSplits ((e :: core'') ++ R)).findSome? fun g => F (d :: g.1, g.2) :=
            findSome?_map_eq _ _ _
        _ = (([], (e :: core'') ++ R) ::
              oneSplits ((e :: core'') ++ R)).findSome? fun g => F (d :: g.1, g.2) := by
            rw [zeroSplits]
        _ = (oneSplits ((e :: core'') ++ R)).findSome? fun g => F (d :: g.1, g.2) :=
            findSome?_cons_none (by simpa using h0)
        _ = some v :=
            ih (fun g => F (d :: g.1, g.2)) (by simp)
              (fun c1 c2 h hc1 hc2 => hnone (d :: c1) c2 (by simp [h]) (by simp) hc2)
              hsome

theorem zeroSplits_findSome {β : Type} (G : Str × Str → Option β) (A B : Str) (v : β)
    (hnone : ∀ a1 a2, A = a1 ++ a2 → a2 ≠ [] → G (a1, a2 ++ B) = none)
    (hsome : G (A, B) = some v) :
    (zeroSplits (A ++ B)).findSome? G = some v := by
  induction A generalizing G with
  | nil =>
    rw [zeroSplits]
    exact findSome?_cons_some (by simpa using hsome)
  | cons d A' ih =>
    have h0 : G ([], (d :: A') ++ B) = none := hnone [] (d :: A') rfl (by simp)
    calc ((zeroSplits ((d :: A') ++ B)).findSome? G)
        = (([], (d :: A') ++ B) :: oneSplits (d :: (A' ++ B))).findSome? G := rfl
      _ = (oneSplits (d :: (A' ++ B))).findSome? G := findSome?_cons_none h0
      _ = ((zeroSplits (A' ++ B)).map fun g => (d :: g.1, g.2)).findSome? G := by
          rw [oneSplits_cons_as_map]
      _ = (zeroSplits (A' ++ B)).findSome? fun g => G (d :: g.1, g.2) :=
          findSome?_map_eq _ _ _
      _ = some v :=
          ih (fun g => G (d :: g.1, g.2))
            (fun a1 a2 h ha2 => hnone (d :: a1) a2 (by simp [h]) ha2)
            hsome

theorem isPrefixOf_append_self (l t : Str) : l.isPrefixOf (l ++ t) = true := by
  induction l with
  | nil => simp [List.isPrefixOf]
  | cons a as ih => simp [List.isPrefixOf, ih]

theorem noEQN (W R : Str) (hW : W ≠ []) (hn : '\n' ∉ W) :
    litEQN.isPrefixOf (W ++ '=' :: '=' :: '=' :: '\n' :: R) = false := by
  have hlit : litEQN = ['=', '=', '=', '\n'] := rfl
  match W, hW with
  | [w0], _ =>
    simp [hlit, List.isPrefixOf]
  | [w0, w1], _ =>
    simp [hlit, List.isPrefixOf]
  | [w0, w1, w2], _ =>
    simp [hlit, List.isPrefixOf]
  | w0 :: w1 :: w2 :: w3 :: W2, _ =>
    have h3 : ¬ (w3 = '\n') := fun h => hn (by simp [h])
    simp [hlit, List.isPrefixOf]
    intro _ _ _
    exact fun h => absurd h.symm h3

theorem prefix_stops_at_newline (P : Str) (hP : '\n' ∉ P) :
    ∀ (u R : Str), P.isPrefixOf (u ++ '\n' :: R) = true → P <+: u := by
  induction P with
  | nil => intro u R _; exact List.nil_prefix
  | cons a P2 ih =>
    intro u R h
    cases u with
    | nil =>
      simp only [List.nil_append, List.isPrefixOf] at h
      have : a = '\n' := by
        by_contra hne
        have : (a == '\n') = false := by simp [hne]
        simp [this] at h
      exact absurd (this ▸ List.mem_cons_self a P2) hP
    | cons b u2 =>
      simp only [List.cons_append, List.isPrefixOf, Bool.and_eq_true, beq_iff_eq] at h
      obtain ⟨rfl, h2⟩ := h
      exact (List.prefix_cons_inj a).2 (ih (fun hx => hP (by simp [hx])) u2 R h2)

theorem head_dropWhile_not_ws (s : Str) (a : Char) (l2 : Str)
    (h : s.dropWhile isWS = a :: l2) : ¬ isWS a := by
  induction s with
  | nil => simp [List.dropWhile] at h
  | cons c rest ih =>
    by_cases hc : isWS c
    · rw [List.dropWhile_cons, if_pos (by simp [hc])] at h
      exact ih h
    · rw [List.dropWhile_cons, if_neg (by simp [hc])] at h
      cases h
      exact hc

theorem dropWhile_allWS (w : Str) (hw : ∀ x ∈ w, isWS x) : w.dropWhile isWS = [] := by
  induction w with
  | nil => rfl
  | cons c rest ih =>
    rw [List.dropWhile_cons, if_pos (by simp [hw c (by simp)])]
    exact ih fun x hx => hw x (by simp [hx])

theorem pyStrip_eq_rev_drop (p : Str) :
    pyStrip p = ((p.dropWhile isWS).reverse.dropWhile isWS).reverse := rfl

theorem mid_eq_pyStrip_append (p : Str) :
    p.dropWhile isWS =
      pyStrip p ++ ((p.dropWhile isWS).reverse.takeWhile isWS).reverse := by
  conv_lhs => rw [← List.reverse_reverse (p.dropWhile isWS)]
  conv_lhs =>
    rw [show (p.dropWhile isWS).reverse =
      (p.dropWhile isWS).reverse.takeWhile isWS ++
        (p.dropWhile isWS).reverse.dropWhile isWS from
      (List.takeWhile_append_dropWhile ..).symm]
  rw [List.reverse_append]
  rfl

theorem pyStrip_decomp (p : Str) :
    ∃ lws tws, p = lws ++ pyStrip p ++ tws ∧ (∀ x ∈ lws, isWS x) ∧ ∀ x ∈ tws, isWS x := by
  refine ⟨p.takeWhile isWS, ((p.dropWhile isWS).reverse.takeWhile isWS).reverse, ?_, ?_, ?_⟩
  · conv_lhs =>
      rw [show p = p.takeWhile isWS ++ p.dropWhile isWS from
        (List.takeWhile_append_dropWhile ..).symm]
    rw [List.append_assoc, ← mid_eq_pyStrip_append]
  · exact fun x hx => List.mem_takeWhile_imp hx
  · intro x hx
    exact List.mem_takeWhile_imp (List.mem_reverse.1 hx)

theorem pyStrip_head_not_ws (p : Str) (a : Char) (l2 : Str)
    (h : pyStrip p = a :: l2) : ¬ isWS a := by
  have hmid := mid_eq_pyStrip_append p
  rw [h] at hmid
  exact head_dropWhile_not_ws p a _ (by simpa using hmid)

theorem pyStrip_last_not_ws (p : Str) (a : Char) (l2 : Str)
    (h : (pyStrip p).reverse = a :: l2) : ¬ isWS a := by
  rw [pyStrip_eq_rev_drop, List.reverse_reverse] at h
  exact head_dropWhile_not_ws (p.dropWhile isWS).reverse a l2 h

theorem pyStrip_idem (s : Str) : pyStrip (pyStrip s) = pyStrip s := by
  cases h : pyStrip s with
  | nil => rfl
  | cons a t =>
    have ha := pyStrip_head_not_ws s a t h
    have h1 : (a :: t).dropWhile isWS = a :: t := by
      rw [List.dropWhile_cons, if_neg (by simp [ha])]
    cases hr : (a :: t).reverse with
    | nil => simp at hr
    | cons b r2 =>
      have hb := pyStrip_last_not_ws s b r2 (by rw [h]; exact hr)
      have h2 : (b :: r2).dropWhile isWS = b :: r2 := by
        rw [List.dropWhile_cons, if_neg (by simp [hb])]
      show pyStrip (a :: t) = a :: t
      rw [pyStrip_eq_rev_drop, h1, hr, h2, ← hr, List.reverse_reverse]

theorem pyStrip_append_ws (x w : Str) (hw : ∀ a ∈ w, isWS a) :
    pyStrip (x ++ w) = pyStrip x := by
  have hw0 : w.dropWhile isWS = [] := dropWhile_allWS w hw
  have hwr : w.reverse.dropWhile isWS = [] :=
    dropWhile_allWS w.reverse fun a ha => hw a (List.mem_reverse.1 ha)
  cases hx : x.dropWhile isWS with
  | nil =>
    have hall : (x ++ w).dropWhile isWS = [] := by
      rw [List.dropWhile_append, hx]
      simpa using hw0
    rw [pyStrip_eq_rev_drop, pyStrip_eq_rev_drop, hall, hx]
  | cons y ys =>
    have happ : (x ++ w).dropWhile isWS = (y :: ys) ++ w := by
      rw [List.dropWhile_append, hx]
      simp
    rw [pyStrip_eq_rev_drop, pyStrip_eq_rev_drop, happ, hx, List.reverse_append,
      List.dropWhile_append, hwr]
    simp

theorem litEND_no_newline : '\n' ∉ litEND := by decide

/-- The end-delimiter check fails at every split strictly inside the
rendered `content ++ "\n"` group. -/
theorem litEND_not_prefix_inside (c B : Str) (a1 a2 : Str)
    (hcend : ∀ s t, c ≠ s ++ (litEND ++ t))
    (hsplit : c ++ ['\n'] = a1 ++ a2) (ha2 : a2 ≠ []) :
    litEND.isPrefixOf (a2 ++ B) = false := by
  have hE : litEND = '=' :: "==END FILE===".data := rfl
  have hsingle : ∀ B2 : Str, litEND.isPrefixOf ('\n' :: B2) = false := by
    intro B2
    rw [hE]
    simp [List.isPrefixOf]
  rcases List.append_eq_append_iff.1 hsplit.symm with ⟨u2, hc, hu⟩ | ⟨u2, ha1, hu⟩
  · cases u2 with
    | nil =>
      simp at hu
      rw [hu]
      exact hsingle B
    | cons x xs =>
      rw [hu]
      by_contra hcontra
      have htrue : litEND.isPrefixOf (((x :: xs) ++ ['\n']) ++ B) = true := by
        revert hcontra
        cases litEND.isPrefixOf (((x :: xs) ++ ['\n']) ++ B) <;> simp
      rw [List.append_assoc, List.singleton_append] at htrue
      have hpre := prefix_stops_at_newline litEND litEND_no_newline (x :: xs) B htrue
      obtain ⟨r, hr⟩ := hpre
      exact hcend a1 r (by rw [hc, ← hr])
  · cases u2 with
    | nil =>
      simp at hu
      rw [← hu]
      exact hsingle B
    | cons x xs =>
      rw [List.cons_append] at hu
      injection hu with hx htail
      obtain ⟨hxs, ha2nil⟩ := List.append_eq_nil.1 htail.symm
      exact absurd ha2nil ha2

/-- Splits strictly inside the path core allow no `\s*===\n` continuation:
the tail match fails there. -/
theorem tailMatch_inside_none (c1 c2 tws : Str) (X : Str)
    (hc2 : c2 ≠ [])
    (hlastc2 : ∀ a, a ∈ c2.reverse.head? → ¬ isWS a)
    (hnc2 : '\n' ∉ c2) (hnt : '\n' ∉ tws) :
    tailMatch (c1, c2 ++ (tws ++ ('=' :: '=' :: '=' :: '\n' :: X))) = none := by
  rw [tailMatch]
  apply findSome?_eq_none_of_all
  intro x hx
  obtain ⟨w, hwx, hww⟩ := wsSplits_mem _ x hx
  obtain ⟨b, r2, hb⟩ : ∃ b r2, c2.reverse = b :: r2 := by
    cases hrev : c2.reverse with
    | nil => exact absurd (by simpa using congrArg List.reverse hrev) hc2
    | cons b r2 => exact ⟨b, r2, rfl⟩
  have hbc2 : b ∈ c2 := List.mem_reverse.1 (hb ▸ List.mem_cons_self b r2)
  have hbnws : ¬ isWS b := hlastc2 b (by rw [hb]; rfl)
  rcases List.append_eq_append_iff.1 hwx.symm with ⟨u2, hc2w, hxu⟩ | ⟨u2, hw2, hR⟩
  · cases u2 with
    | nil =>
      rw [List.append_nil] at hc2w
      exact absurd (hww b (hc2w ▸ hbc2)) hbnws
    | cons y ys =>
      rw [hxu, eqnCheck, ← List.append_assoc]
      rw [noEQN ((y :: ys) ++ tws) X (by simp) (by
        intro hmem
        rcases List.mem_append.1 hmem with hmem | hmem
        · exact absurd (hc2w ▸ List.mem_append.2 (Or.inr hmem)) hnc2
        · exact absurd hmem hnt)]
      rfl
  · exact absurd (hww b (hw2 ▸ List.mem_append.2 (Or.inl hbc2))) hbnws

/-- At the core boundary the tail match succeeds, yielding the content
group `c ++ "\n"` and the text after the end delimiter. -/
theorem tailMatch_boundary (g1 tws c tail : Str)
    (ht : ∀ x ∈ tws, isWS x)
    (hcend : ∀ s t, c ≠ s ++ (litEND ++ t)) :
    tailMatch (g1, tws ++ (litEQN ++ ((c ++ ['\n']) ++ (litEND ++ tail)))) =
      some (g1, c ++ ['\n'], tail) := by
  rw [tailMatch]
  obtain ⟨junk2, hws2⟩ :=
    wsSplits_head_of_allWS tws (litEQN ++ ((c ++ ['\n']) ++ (litEND ++ tail))) ht
      (by
        intro a ha
        have h1 : (litEQN ++ ((c ++ ['\n']) ++ (litEND ++ tail))).head? = some '=' := rfl
        rw [h1] at ha
        have h2 : a = '=' := by simpa [eq_comm] using ha
        rw [h2]
        decide)
  rw [hws2]
  apply findSome?_cons_some
  rw [eqnCheck, if_pos (isPrefixOf_append_self _ _), List.drop_left]
  apply zeroSplits_findSome _ (c ++ ['\n']) (litEND ++ tail)
  · intro a1 a2 hsplit ha2
    rw [endCheck]
    rw [litEND_not_prefix_inside c (litEND ++ tail) a1 a2 hcend hsplit ha2]
    rfl
  · rw [endCheck, if_pos (isPrefixOf_append_self _ _), List.drop_left]

/-- Backtracking match of the block-regex tail on a rendered well-formed
block: the groups are exactly the stripped path core and the content
followed by its closing newline, and the remainder is the trailing text. -/
theorem matchCore_render (lws core tws c tail : Str)
    (hl : ∀ x ∈ lws, isWS x) (ht : ∀ x ∈ tws, isWS x)
    (hcore : core ≠ [])
    (hhead : ∀ a, a ∈ core.head? → ¬ isWS a)
    (hlast : ∀ a, a ∈ core.reverse.head? → ¬ isWS a)
    (hnc : '\n' ∉ core) (hnt : '\n' ∉ tws)
    (hcend : ∀ s t, c ≠ s ++ (litEND ++ t)) :
    matchCore ((' ' :: lws) ++
        (core ++ (tws ++ (litEQN ++ ((c ++ ['\n']) ++ (litEND ++ tail)))))) =
      some (core, c ++ ['\n'], tail) := by
  obtain ⟨junk, hws⟩ :=
    wsSplits_head_of_allWS (' ' :: lws)
      (core ++ (tws ++ (litEQN ++ ((c ++ ['\n']) ++ (litEND ++ tail)))))
      (by
        intro x hx
        rcases List.mem_cons.1 hx with rfl | hx
        · decide
        · exact hl x hx)
      (by
        intro a ha
        apply hhead a
        cases core with
        | nil => exact absurd rfl hcore
        | cons a0 core2 => simpa using ha)
  rw [matchCore, hws]
  apply findSome?_cons_some
  apply oneSplits_findSome _ core _ _ hcore
  · intro c1 c2 hc12 hc1 hc2
    have hEQX : tws ++ (litEQN ++ ((c ++ ['\n']) ++ (litEND ++ tail))) =
        tws ++ ('=' :: '=' :: '=' :: '\n' :: ((c ++ ['\n']) ++ (litEND ++ tail))) := rfl
    rw [hEQX]
    apply tailMatch_inside_none c1 c2 tws _ hc2
    · intro a ha
      apply hlast a
      rw [hc12, List.reverse_append]
      cases hrev : c2.reverse with
      | nil => exact absurd (by simpa using congrArg List.reverse hrev) hc2
      | cons b r2 =>
        rw [hrev] at ha
        simpa using ha
    · exact fun hmem => hnc (hc12 ▸ List.mem_append.2 (Or.inr hmem))
    · exact hnt
  · exact tailMatch_boundary core tws c tail ht hcend

theorem zeroSplits_mem (s : Str) (g : Str × Str) (hg : g ∈ zeroSplits s) :
    s = g.1 ++ g.2 := by
  rw [zeroSplits] at hg
  rcases List.mem_cons.1 hg with rfl | hg
  · rfl
  · exact (oneSplits_mem s g hg).1

theorem isPrefixOf_length_le (l s : Str) (h : l.isPrefixOf s = true) :
    l.length ≤ s.length := by
  have := List.isPrefixOf_iff_prefix.1 h
  exact this.length_le

/-- A successful match consumes at least one character: the remainder is
strictly shorter than the input. -/
theorem matchCore_some_length (s : Str) (r : Str × Str × Str)
    (h : matchCore s = some r) : r.2.2.length < s.length := by
  rw [matchCore] at h
  obtain ⟨s1, hs1, h1⟩ := findSome?_mem h
  obtain ⟨w1, hw1, _⟩ := wsSplits_mem s s1 hs1
  obtain ⟨g1s, hg1, h2⟩ := findSome?_mem h1
  obtain ⟨hsp, hne⟩ := oneSplits_mem s1 g1s hg1
  rw [tailMatch] at h2
  obtain ⟨s3, hs3, h3⟩ := findSome?_mem h2
  obtain ⟨w3, hw3, _⟩ := wsSplits_mem _ s3 hs3
  rw [eqnCheck] at h3
  by_cases hp : litEQN.isPrefixOf s3 = true
  · rw [if_pos hp] at h3
    obtain ⟨g2s, hg2, h4⟩ := findSome?_mem h3
    have hsp4 := zeroSplits_mem _ g2s hg2
    rw [endCheck] at h4
    by_cases hp2 : litEND.isPrefixOf g2s.2 = true
    · rw [if_pos hp2] at h4
      have hr : r.2.2 = g2s.2.drop litEND.length := by
        rw [← Option.some.inj h4]
      have l1 : s1.length ≤ s.length := by rw [hw1]; simp
      have l2 : g1s.2.length < s1.length := by
        rw [hsp, List.length_append]
        have := List.length_pos.2 hne
        omega
      have l3 : s3.length ≤ g1s.2.length := by rw [hw3]; simp
      have l4 : litEQN.length ≤ s3.length := isPrefixOf_length_le _ _ hp
      have l5 : (s3.drop litEQN.length).length = s3.length - litEQN.length :=
        List.length_drop _ _
      have l6 : g2s.2.length ≤ (s3.drop litEQN.length).length := by
        rw [hsp4]; simp
      have l7 : litEND.length ≤ g2s.2.length := isPrefixOf_length_le _ _ hp2
      have l8 : r.2.2.length = g2s.2.length - litEND.length := by
        rw [hr, List.length_drop]
      have e1 : litEQN.length = 4 := rfl
      have e2 : litEND.length = 14 := rfl
      omega
    · rw [if_neg hp2] at h4
      exact absurd h4 (by simp)
  · rw [if_neg hp] at h3
    exact absurd h3 (by simp)

/-- `findIterAux` does not depend on its fuel once the fuel covers the
input length. -/
theorem findIterAux_fuel_eq :
    ∀ (fuel : Nat) (s : Str), s.length ≤ fuel →
      findIterAux fuel s = findIterAux s.length s := by
  intro fuel
  induction fuel using Nat.strong_induction_on with
  | _ fuel ih =>
    intro s hs
    cases s with
    | nil => cases fuel <;> rfl
    | cons c rest =>
      cases fuel with
      | zero => simp at hs
      | succ f =>
        show findIterAux (f + 1) (c :: rest) = findIterAux (rest.length + 1) (c :: rest)
        by_cases hpre : litFILE.isPrefixOf (c :: rest) = true
        · cases hmc : matchCore ((c :: rest).drop litFILE.length) with
          | some r =>
            obtain ⟨g1, g2, after⟩ := r
            have hlen : after.length < ((c :: rest).drop litFILE.length).length := by
              simpa using matchCore_some_length _ _ hmc
            have hdl : ((c :: rest).drop litFILE.length).length =
                rest.length + 1 - litFILE.length := by
              rw [List.length_drop]; rfl
            have e8 : litFILE.length = 8 := rfl
            have hafter : after.length ≤ rest.length := by omega
            simp only [findIterAux, hpre, if_true, hmc]
            have c1 : findIterAux f after = findIterAux after.length after :=
              ih f (Nat.lt_succ_self f) after (by
                have : rest.length ≤ f := by simpa using hs
                omega)
            have c2 : findIterAux rest.length after = findIterAux after.length after :=
              ih rest.length (by
                have : rest.length ≤ f := by simpa using hs
                omega) after hafter
            rw [c1, c2]
          | none =>
            simp only [findIterAux, hpre, if_true, hmc]
            have hrf : rest.length ≤ f := by simpa using hs
            rw [ih f (Nat.lt_succ_self f) rest hrf,
              ih rest.length (by omega) rest (Nat.le_refl _)]
        · have hpre2 : litFILE.isPrefixOf (c :: rest) = false := by
            cases hb : litFILE.isPrefixOf (c :: rest)
            · rfl
            · exact absurd hb hpre
          simp only [findIterAux, hpre2, Bool.false_eq_true, if_false]
          have hrf : rest.length ≤ f := by simpa using hs
          rw [ih f (Nat.lt_succ_self f) rest hrf,
            ih rest.length (by omega) rest (Nat.le_refl _)]

/-- Scanning advances one character when the `===FILE:` literal does not
match. -/
theorem findIter_cons_skip (ch : Char) (s : Str)
    (h : litFILE.isPrefixOf (ch :: s) = false) :
    findIter (ch :: s) = findIter s := by
  show findIterAux (s.length + 1) (ch :: s) = findIterAux s.length s
  simp only [findIterAux, h, Bool.false_eq_true, if_false]

/-- Scanning at a position where the literal and the rest of the pattern
match emits the groups and resumes after the match. -/
theorem findIter_match_step (s : Str) (g1 g2 after : Str)
    (hpre : litFILE.isPrefixOf s = true)
    (hmc : matchCore (s.drop litFILE.length) = some (g1, g2, after)) :
    findIter s = (g1, g2) :: findIter after := by
  cases s with
  | nil =>
    have h0 : litFILE.isPrefixOf ([] : Str) = false := rfl
    rw [h0] at hpre
    simp at hpre
  | cons c rest =>
    show findIterAux (rest.length + 1) (c :: rest) = _
    simp only [findIterAux, hpre, if_true, hmc]
    have hlen : after.length < ((c :: rest).drop litFILE.length).length := by
      simpa using matchCore_some_length _ _ hmc
    have hdl : ((c :: rest).drop litFILE.length).length =
        rest.length + 1 - litFILE.length := by
      rw [List.length_drop]; rfl
    have e8 : litFILE.length = 8 := rfl
    rw [findIterAux_fuel_eq rest.length after (by omega)]
    rfl

/-- One rendered well-formed block at the head of the text produces exactly
one match: the stripped path and the content followed by its closing
newline. -/
theorem findIter_renderBlock (p c rest : Str)
    (hn : '\n' ∉ p) (hps : pyStrip p ≠ [])
    (hcend : ∀ s t, c ≠ s ++ (litEND ++ t)) :
    findIter (renderBlock p c ++ rest) = (pyStrip p, c ++ ['\n']) :: findIter rest := by
  obtain ⟨lws, tws, hdecomp, hlws, htws⟩ := pyStrip_decomp p
  have hshape : renderBlock p c ++ rest =
      litFILE ++ ((' ' :: lws) ++
        (pyStrip p ++ (tws ++ (litEQN ++ ((c ++ ['\n']) ++ (litEND ++ rest)))))) := by
    rw [renderBlock,
      show ("===FILE: ".data : Str) = litFILE ++ [' '] from rfl,
      show ("\n===END FILE===".data : Str) = '\n' :: litEND from rfl,
      show ("===\n".data : Str) = litEQN from rfl]
    conv_lhs => rw [hdecomp]
    simp
  rw [hshape]
  apply findIter_match_step
  · exact isPrefixOf_append_self litFILE _
  · rw [List.drop_left]
    apply matchCore_render lws (pyStrip p) tws c rest hlws htws hps
    · intro a ha
      cases hstrip : pyStrip p with
      | nil => rw [hstrip] at ha; simp at ha
      | cons a0 t0 =>
        rw [hstrip] at ha
        have : a = a0 := by simpa [eq_comm] using ha
        rw [this]
        exact pyStrip_head_not_ws p a0 t0 hstrip
    · intro a ha
      cases hstrip : (pyStrip p).reverse with
      | nil => rw [hstrip] at ha; simp at ha
      | cons a0 t0 =>
        rw [hstrip] at ha
        have : a = a0 := by simpa [eq_comm] using ha
        rw [this]
        exact pyStrip_last_not_ws p a0 t0 hstrip
    · intro hmem
      exact hn (hdecomp ▸ List.mem_append.2 (Or.inl (List.mem_append.2 (Or.inr hmem))))
    · intro hmem
      exact hn (hdecomp ▸ List.mem_append.2 (Or.inr hmem))
    · exact hcend

/-- Scanning a newline-separated sequence of rendered well-formed blocks
yields exactly one match per block, in order. -/
theorem findIter_renderBlocks (bs : List (Str × Str))
    (h : ∀ b ∈ bs, ('\n' ∉ b.1) ∧ pyStrip b.1 ≠ [] ∧ ∀ s t, b.2 ≠ s ++ (litEND ++ t)) :
    findIter (renderBlocks bs) = bs.map fun b => (pyStrip b.1, b.2 ++ ['\n']) := by
  induction bs with
  | nil => rfl
  | cons b bs2 ih =>
    obtain ⟨hn, hps, hcend⟩ := h b (by simp)
    cases bs2 with
    | nil =>
      show findIter (joinSep "\n".data [renderBlock b.1 b.2]) = _
      rw [show joinSep "\n".data [renderBlock b.1 b.2] = renderBlock b.1 b.2 from rfl,
        show renderBlock b.1 b.2 = renderBlock b.1 b.2 ++ [] from (List.append_nil _).symm,
        findIter_renderBlock b.1 b.2 [] hn hps hcend]
      rfl
    | cons b2 bs3 =>
      have hjoin : renderBlocks (b :: b2 :: bs3) =
          renderBlock b.1 b.2 ++ ('\n' :: renderBlocks (b2 :: bs3)) := by
        show renderBlock b.1 b.2 ++ "\n".data ++
            joinSep "\n".data ((b2 :: bs3).map fun b => renderBlock b.1 b.2) = _
        rw [List.append_assoc]
        rfl
      rw [hjoin, findIter_renderBlock b.1 b.2 _ hn hps hcend]
      rw [findIter_cons_skip '\n' _ rfl]
      rw [ih fun x hx => h x (by simp [hx])]
      rfl

theorem parseVal_eq_sign (fuel : Nat) (t : Str) :
    parseVal (fuel + 1) ('=' :: t) = none := rfl

theorem json_loads_eq_sign (t : Str) : json_loads ('=' :: t) = none := by
  rw [json_loads, show (('=' :: t).length + 1) = (t.length + 1) + 1 from rfl,
    parseVal_eq_sign]

theorem json_loads_nil : json_loads [] = none := rfl

theorem renderBlocks_cons_head (b : Str × Str) (bs2 : List (Str × Str)) :
    ∃ t, renderBlocks (b :: bs2) = '=' :: t := by
  cases bs2 with
  | nil => exact ⟨_, rfl⟩
  | cons b2 bs3 => exact ⟨_, rfl⟩

theorem filterMap_map_congr {α β γ : Type} (l : List α) (g : α → β) (f : β → Option γ)
    (f2 : α → Option γ) (h : ∀ a ∈ l, f (g a) = f2 a) :
    (l.map g).filterMap f = l.filterMap f2 := by
  induction l with
  | nil => rfl
  | cons a t ih =>
    rw [List.map_cons, List.filterMap_cons, List.filterMap_cons, h a (by simp)]
    cases f2 a <;> rw [ih fun x hx => h x (by simp [hx])]

/-- C2 (amended): for every report text consisting of newline-separated
blocks `===FILE: <path>===\n<content>\n===END FILE===` whose paths are
newline-free and non-empty after trimming and whose contents do not contain
the end delimiter, `parse_file_changes` returns exactly one edit per block,
in order of appearance, with both fields trimmed of surrounding whitespace;
a block whose trimmed content is empty contributes no edit.  (The
restriction on paths is forced by the counterexample
`parse_file_changes_block_claim_false`: a block whose path trims to empty
makes the regex swallow the following block.) -/
theorem parse_file_changes_blocks (bs : List (Str × Str))
    (h : ∀ b ∈ bs, ('\n' ∉ b.1) ∧ pyStrip b.1 ≠ [] ∧ ¬ litEND <:+: b.2) :
    parse_file_changes (renderBlocks bs) =
      bs.filterMap fun b =>
        if pyStrip b.1 ≠ [] ∧ pyStrip b.2 ≠ [] then
          some (FileChange.ofStr (pyStrip b.1) (pyStrip b.2))
        else none := by
  have h2 : ∀ b ∈ bs, ('\n' ∉ b.1) ∧ pyStrip b.1 ≠ [] ∧
      ∀ s t, b.2 ≠ s ++ (litEND ++ t) := by
    intro b hb
    obtain ⟨hn, hps, hinf⟩ := h b hb
    refine ⟨hn, hps, fun s t heq => hinf ⟨s, t, ?_⟩⟩
    rw [heq, List.append_assoc]
  have hfi := findIter_renderBlocks bs h2
  have hchanges : ((findIter (renderBlocks bs)).filterMap fun m =>
      if pyStrip m.1 ≠ [] ∧ pyStrip m.2 ≠ [] then
        some (FileChange.ofStr (pyStrip m.1) (pyStrip m.2))
      else none) =
      bs.filterMap fun b =>
        if pyStrip b.1 ≠ [] ∧ pyStrip b.2 ≠ [] then
          some (FileChange.ofStr (pyStrip b.1) (pyStrip b.2))
        else none := by
    rw [hfi]
    apply filterMap_map_congr
    intro b hb
    rw [pyStrip_idem, pyStrip_append_ws b.2 ['\n'] (by
      intro a ha
      simp at ha
      rw [ha]
      decide)]
  show (match ((findIter (renderBlocks bs)).filterMap fun (m : Str × Str) =>
      if pyStrip m.1 ≠ [] ∧ pyStrip m.2 ≠ [] then
        some (FileChange.ofStr (pyStrip m.1) (pyStrip m.2))
      else none : List FileChange) with
    | _ :: _ => ((findIter (renderBlocks bs)).filterMap fun (m : Str × Str) =>
        if pyStrip m.1 ≠ [] ∧ pyStrip m.2 ≠ [] then
          some (FileChange.ofStr (pyStrip m.1) (pyStrip m.2))
        else none)
    | [] =>
      match json_loads (renderBlocks bs) with
      | some (.dict kvs) =>
        match lookupKey kvs "files".data with
        | some files => collectFiles files
        | none => []
      | _ => []) = _
  rw [hchanges]
  cases hres : (bs.filterMap fun b =>
      if pyStrip b.1 ≠ [] ∧ pyStrip b.2 ≠ [] then
        some (FileChange.ofStr (pyStrip b.1) (pyStrip b.2))
      else none) with
  | cons x xs => rfl
  | nil =>
    cases bs with
    | nil => rfl
    | cons b bs2 =>
      obtain ⟨t, ht⟩ := renderBlocks_cons_head b bs2
      rw [ht, json_loads_eq_sign]

/-- Counterexample to C2 as stated: the text consists of two non-overlapping
blocks of the grammar — one whose path trims to empty (so, per the claim, it
contributes no edit) followed by one with path `p` and content `B` — yet
`parse_file_changes` returns a single edit that is not `{p, B}`: the regex
backtracks across the first block's whitespace-only path and swallows the
second block into one match. -/
theorem parse_file_changes_block_claim_false :
    parse_file_changes
        "===FILE:   ===\nA\n===END FILE===\n===FILE: p===\nB\n===END FILE===".data =
      [FileChange.ofStr "===\nA\n===END FILE".data "===FILE: p===\nB".data] ∧
    [FileChange.ofStr "===\nA\n===END FILE".data "===FILE: p===\nB".data] ≠
      [FileChange.ofStr "p".data "B".data] := by
  constructor
  · rfl
  · simp [FileChange.ofStr]

/-- Witness for the amended C2: two concrete well-formed blocks — one with
whitespace around both fields, one whose content is whitespace-only — parse
to exactly the trimmed first edit. -/
theorem parse_file_changes_blocks_witness :
    parse_file_changes
        (renderBlocks [(" a ".data, " print(1) ".data), ("b.py".data, "   ".data)]) =
      [FileChange.ofStr "a".data "print(1)".data] := by
  have h := parse_file_changes_blocks
    [(" a ".data, " print(1) ".data), ("b.py".data, "   ".data)] (by decide)
  rw [h]
  rfl

/-! ### Lemmas about the orchestrator -/

theorem resolvedChanges_ne_nil (s : Str) (fr : List FailedRun) (hs : Str) :
    resolvedChanges s fr hs ≠ [] := by
  rw [resolvedChanges]
  cases parse_file_changes s <;> simp

/-- Normal form of the `process_push` trace on the failure path when the
guard finds no open fix PR and the crew call succeeds. -/
theorem process_push_failure_trace (repo head_sha branch pusher : Str)
    (env : ProcEnv) (crewOut : Str)
    (hfail : env.ciResult.status = "failure".data)
    (hnoprs : get_open_fix_prs env.pullsResp = [])
    (hcrew : env.crewResult = fun _ => .ok crewOut) :
    process_push repo head_sha branch pusher env =
      Action.createBranch ("fix/ci-".data ++ head_sha.take 7) ::
        (match env.branchCreate with
         | .error _ => []
         | .ok _ =>
           ((resolvedChanges crewOut env.ciResult.failed_runs head_sha).map
              fun ch => Action.commitFile ch.path) ++
             (match (resolvedChanges crewOut env.ciResult.failed_runs head_sha).enum.filterMap
                 (fun ic =>
                   match env.commitOk ic.1 with
                   | .ok _ => some ic.2.path
                   | .error _ => none) with
              | [] => []
              | _ =>
                Action.createPr ("fix/ci-".data ++ head_sha.take 7) env.default_branch ::
                  (match env.prCreate with
                   | .error _ => []
                   | .ok _ => [Action.storeFix]))) := by
  rw [process_push, hfail]
  rw [if_neg (by decide), if_neg (by decide), if_neg (by decide), hnoprs]
  rw [hcrew]

/-- C3: whenever CI classification is `failure` and the open-PR listing
contains at least one PR whose head branch starts with `fix/ci-`, the
pipeline posts one comment on the first such PR and stops: its trace is
exactly that comment, with no create-branch and no create-PR call. -/
theorem guard_blocks_new_fix (repo head_sha branch pusher : Str) (env : ProcEnv)
    (prs : List PullReq) (pr : PullReq) (rest : List PullReq)
    (hfail : env.ciResult.status = "failure".data)
    (hpulls : env.pullsResp = some prs)
    (hfix : prs.filter (fun q => "fix/ci-".data.isPrefixOf q.head_ref) = pr :: rest) :
    process_push repo head_sha branch pusher env = [Action.commentPr pr.number] ∧
    ∀ a ∈ process_push repo head_sha branch pusher env,
      ¬ a.isCreateBranch ∧ ¬ a.isCreatePr := by
  have htr : process_push repo head_sha branch pusher env = [Action.commentPr pr.number] := by
    rw [process_push, hfail]
    rw [if_neg (by decide), if_neg (by decide), if_neg (by decide)]
    rw [show get_open_fix_prs env.pullsResp = pr :: rest from by
      rw [hpulls, get_open_fix_prs, hfix]]
  refine ⟨htr, ?_⟩
  rw [htr]
  intro a ha
  rcases List.mem_singleton.1 ha with rfl
  exact ⟨by simp [Action.isCreateBranch], by simp [Action.isCreatePr]⟩

/-- Witness for C3: in a concrete environment with one open `fix/ci-*` PR
(number 7), the trace is exactly one comment on PR 7. -/
theorem guard_blocks_new_fix_witness :
    process_push "o/r".data "abcdef1234".data "main".data "alice".data
        { sampleEnv with pullsResp := some [⟨7, "fix/ci-abc1234".data, "u".data⟩] } =
      [Action.commentPr 7] :=
  (guard_blocks_new_fix "o/r".data "abcdef1234".data "main".data "alice".data
    { sampleEnv with pullsResp := some [⟨7, "fix/ci-abc1234".data, "u".data⟩] }
    [⟨7, "fix/ci-abc1234".data, "u".data⟩] ⟨7, "fix/ci-abc1234".data, "u".data⟩ []
    rfl rfl (by decide)).1

/-- C8: when CI classification is `success`, the pipeline's whole trace is,
for each open `fix/ci-*` PR against the default branch in order, one
comment followed by one close; when no such PR is open it makes no call at
all; and in every case it creates no branch, commit, PR or fix record. -/
theorem success_closes_stale (repo head_sha branch pusher : Str) (env : ProcEnv)
    (hsucc : env.ciResult.status = "success".data) :
    process_push repo head_sha branch pusher env =
      (get_open_fix_prs env.pullsResp).flatMap
        (fun pr => [Action.commentPr pr.number, Action.closePr pr.number]) ∧
    (get_open_fix_prs env.pullsResp = [] →
      process_push repo head_sha branch pusher env = []) ∧
    ∀ a ∈ process_push repo head_sha branch pusher env,
      ¬ a.isCreateBranch ∧ ¬ a.isCommitFile ∧ ¬ a.isCreatePr ∧ ¬ a.isStoreFix := by
  have htr : process_push repo head_sha branch pusher env =
      (get_open_fix_prs env.pullsResp).flatMap
        (fun pr => [Action.commentPr pr.number, Action.closePr pr.number]) := by
    rw [process_push, if_pos hsucc, close_stale_fix_prs]
  refine ⟨htr, fun h => by rw [htr, h]; rfl, ?_⟩
  rw [htr]
  intro a ha
  obtain ⟨pr, _, hmem⟩ := List.mem_flatMap.1 ha
  rcases List.mem_cons.1 hmem with rfl | hmem
  · exact ⟨by simp [Action.isCreateBranch], by simp [Action.isCommitFile],
      by simp [Action.isCreatePr], by simp [Action.isStoreFix]⟩
  · rcases List.mem_singleton.1 hmem with rfl
    exact ⟨by simp [Action.isCreateBranch], by simp [Action.isCommitFile],
      by simp [Action.isCreatePr], by simp [Action.isStoreFix]⟩

/-- Witness for C8: with CI green and two open fix PRs (numbers 3 and 9),
the trace is comment-close on 3 then comment-close on 9; with no open fix
PR the trace is empty. -/
theorem success_closes_stale_witness :
    process_push "o/r".data "abcdef1234".data "main".data "alice".data
        { sampleEnv with
            ciResult := ⟨"success".data, [], []⟩,
            pullsResp := some [⟨3, "fix/ci-x".data, "u".data⟩,
                               ⟨4, "feature/y".data, "u".data⟩,
                               ⟨9, "fix/ci-z".data, "u".data⟩] } =
      [Action.commentPr 3, Action.closePr 3, Action.commentPr 9, Action.closePr 9] ∧
    process_push "o/r".data "abcdef1234".data "main".data "alice".data
        { sampleEnv with ciResult := ⟨"success".data, [], []⟩ } = [] := by
  constructor
  · exact (success_closes_stale "o/r".data "abcdef1234".data "main".data "alice".data
      { sampleEnv with
          ciResult := ⟨"success".data, [], []⟩,
          pullsResp := some [⟨3, "fix/ci-x".data, "u".data⟩,
                             ⟨4, "feature/y".data, "u".data⟩,
                             ⟨9, "fix/ci-z".data, "u".data⟩] } rfl).1.trans (by rfl)
  · exact (success_closes_stale "o/r".data "abcdef1234".data "main".data "alice".data
      { sampleEnv with ciResult := ⟨"success".data, [], []⟩ } rfl).2.1 rfl

/-- C6: whenever the parser returns an empty edit list for the reasoning
output, the orchestrator substitutes exactly one advisory edit at
`fixes/ci-fix-<id>.md` — `<id>` being the first failed run's id, or the
7-character short commit SHA when no failed run is available — whose content
contains the raw report text; hence the edit set handed to the commit step
is never empty. -/
theorem advisory_fallback (crew_output : Str) (failed_runs : List FailedRun)
    (head_sha : Str)
    (hempty : parse_file_changes crew_output = []) :
    resolvedChanges crew_output failed_runs head_sha =
      [FileChange.ofStr
        ("fixes/ci-fix-".data ++ firstRunId failed_runs head_sha ++ ".md".data)
        ("# CI Fix Suggestion (run ".data ++ firstRunId failed_runs head_sha ++
          ")\n\n".data ++ crew_output)] ∧
    (∀ r rs, failed_runs = r :: rs → firstRunId failed_runs head_sha = natStr r.id) ∧
    (failed_runs = [] → firstRunId failed_runs head_sha = head_sha.take 7) ∧
    ∀ (s : Str) (fr : List FailedRun) (hs : Str), resolvedChanges s fr hs ≠ [] := by
  refine ⟨?_, ?_, ?_, resolvedChanges_ne_nil⟩
  · rw [resolvedChanges, hempty, advisoryChange]
  · intro r rs h
    rw [h]
    rfl
  · intro h
    rw [h]
    rfl

/-- Witness for C6: a report with no block and no JSON parses to no edit, and
the resolved edit set is the single advisory file named after run id 101;
with no failed run it is named after the short SHA. -/
theorem advisory_fallback_witness :
    resolvedChanges "no structured output".data
        [⟨101, "build".data, "url".data, "failure".data⟩] "abcdef1234".data =
      [FileChange.ofStr "fixes/ci-fix-101.md".data
        "# CI Fix Suggestion (run 101)\n\nno structured output".data] ∧
    resolvedChanges "no structured output".data [] "abcdef1234".data =
      [FileChange.ofStr "fixes/ci-fix-abcdef1.md".data
        "# CI Fix Suggestion (run abcdef1)\n\nno structured output".data] := by
  constructor
  · exact ((advisory_fallback "no structured output".data
      [⟨101, "build".data, "url".data, "failure".data⟩] "abcdef1234".data rfl).1).trans rfl
  · exact ((advisory_fallback "no structured output".data [] "abcdef1234".data
      rfl).1).trans rfl

/-- C7: on the failure path (no open fix PR, crew succeeded, branch
created), the pipeline attempts one commit per extracted edit, in extracted
order, whatever the individual commit outcomes are — so one file's failure
does not prevent the remaining attempts — and when every commit fails it
stops without calling create-PR and without storing a fix record. -/
theorem commit_isolation (repo head_sha branch pusher : Str) (env : ProcEnv)
    (crewOut : Str)
    (hfail : env.ciResult.status = "failure".data)
    (hnoprs : get_open_fix_prs env.pullsResp = [])
    (hcrew : env.crewResult = fun _ => .ok crewOut)
    (hbr : env.branchCreate = .ok ()) :
    ((process_push repo head_sha branch pusher env).filter (fun a => a.isCommitFile) =
      (resolvedChanges crewOut env.ciResult.failed_runs head_sha).map
        fun ch => Action.commitFile ch.path) ∧
    ((∀ i, env.commitOk i = .error ()) →
      ∀ a ∈ process_push repo head_sha branch pusher env,
        ¬ a.isCreatePr ∧ ¬ a.isStoreFix) := by
  have htr := process_push_failure_trace repo head_sha branch pusher env crewOut
    hfail hnoprs hcrew
  rw [hbr] at htr
  constructor
  · rw [htr, List.filter_cons]
    have h1 : (Action.createBranch ("fix/ci-".data ++ head_sha.take 7)).isCommitFile
        = false := rfl
    rw [h1]
    simp only [Bool.false_eq_true, if_false]
    rw [List.filter_append]
    have h2 : ((resolvedChanges crewOut env.ciResult.failed_runs head_sha).map
        (fun ch => Action.commitFile ch.path)).filter (fun a => a.isCommitFile) =
        (resolvedChanges crewOut env.ciResult.failed_runs head_sha).map
          (fun ch => Action.commitFile ch.path) := by
      rw [List.filter_eq_self]
      intro a ha
      obtain ⟨ch, _, rfl⟩ := List.mem_map.1 ha
      rfl
    rw [h2]
    have h3 : ∀ tail2 : List Action,
        (∀ a ∈ tail2, a.isCommitFile = false) →
        tail2.filter (fun a => a.isCommitFile) = [] := by
      intro tail2 hall
      rw [List.filter_eq_nil_iff]
      intro a ha
      simp [hall a ha]
    rw [h3 _ ?_, List.append_nil]
    intro a ha
    rcases hcm : (resolvedChanges crewOut env.ciResult.failed_runs head_sha).enum.filterMap
        (fun ic => match env.commitOk ic.1 with
          | .ok _ => some ic.2.path
          | .error _ => none) with
      _ | ⟨p, ps⟩
    · rw [hcm] at ha
      simp at ha
    · rw [hcm] at ha
      rcases List.mem_cons.1 ha with rfl | ha
      · rfl
      · rcases hpc : env.prCreate with _ | _
        · rw [hpc] at ha
          simp at ha
        · rw [hpc] at ha
          rcases List.mem_singleton.1 ha with rfl
          rfl
  · intro hallfail a ha
    have hcomm : (resolvedChanges crewOut env.ciResult.failed_runs head_sha).enum.filterMap
        (fun ic => match env.commitOk ic.1 with
          | .ok _ => some ic.2.path
          | .error _ => none) = [] := by
      rw [List.filterMap_eq_nil_iff]
      intro ic _
      rw [hallfail ic.1]
    rw [htr, hcomm] at ha
    rcases List.mem_cons.1 ha with rfl | ha
    · exact ⟨by simp [Action.isCreatePr], by simp [Action.isStoreFix]⟩
    · rw [List.append_nil] at ha
      obtain ⟨ch, _, rfl⟩ := List.mem_map.1 ha
      exact ⟨by simp [Action.isCreatePr], by simp [Action.isStoreFix]⟩

/-- Witness for C7: two extracted edits are both attempted in order; when
every commit fails the trace is branch-creation plus the two attempts only,
with no create-PR and no store. -/
theorem commit_isolation_witness :
    ((process_push "o/r".data "abcdef1234".data "main".data "alice".data
        { sampleEnv with
            crewResult := fun _ => .ok
              "===FILE: a.py===\nx=1\n===END FILE===\n===FILE: b.py===\ny=2\n===END FILE===".data,
            commitOk := fun _ => .error () }).filter (fun a => a.isCommitFile) =
      [Action.commitFile (.str "a.py".data), Action.commitFile (.str "b.py".data)]) ∧
    ∀ a ∈ process_push "o/r".data "abcdef1234".data "main".data "alice".data
        { sampleEnv with
            crewResult := fun _ => .ok
              "===FILE: a.py===\nx=1\n===END FILE===\n===FILE: b.py===\ny=2\n===END FILE===".data,
            commitOk := fun _ => .error () },
      ¬ a.isCreatePr ∧ ¬ a.isStoreFix := by
  have h := commit_isolation "o/r".data "abcdef1234".data "main".data "alice".data
    { sampleEnv with
        crewResult := fun _ => .ok
          "===FILE: a.py===\nx=1\n===END FILE===\n===FILE: b.py===\ny=2\n===END FILE===".data,
        commitOk := fun _ => .error () }
    "===FILE: a.py===\nx=1\n===END FILE===\n===FILE: b.py===\ny=2\n===END FILE===".data
    rfl rfl rfl rfl
  exact ⟨h.1.trans (by rfl), h.2 fun i => rfl⟩

/-- C10 (implicit): a non-200 response to the open-PR listing makes
`get_open_fix_prs` return the empty list instead of raising, so the
duplicate-fix guard sees "no open fix PR" and the pipeline proceeds to
create a new fix branch and PR — the guard is silently disabled by a
transient listing error. -/
theorem listing_failure_disables_guard (repo head_sha branch pusher : Str)
    (env : ProcEnv) (crewOut : Str)
    (hfail : env.ciResult.status = "failure".data)
    (hpulls : env.pullsResp = none)
    (hcrew : env.crewResult = fun _ => .ok crewOut)
    (hbr : env.branchCreate = .ok ())
    (hc0 : env.commitOk 0 = .ok ())
    (hpr : env.prCreate = .ok "purl".data) :
    get_open_fix_prs none = [] ∧
    Action.createBranch ("fix/ci-".data ++ head_sha.take 7) ∈
      process_push repo head_sha branch pusher env ∧
    Action.createPr ("fix/ci-".data ++ head_sha.take 7) env.default_branch ∈
      process_push repo head_sha branch pusher env := by
  have hnoprs : get_open_fix_prs env.pullsResp = [] := by rw [hpulls]; rfl
  have htr := process_push_failure_trace repo head_sha branch pusher env crewOut
    hfail hnoprs hcrew
  rw [hbr] at htr
  refine ⟨rfl, by rw [htr]; exact List.mem_cons_self _ _, ?_⟩
  rw [htr]
  obtain ⟨ch0, chrest, hch⟩ : ∃ ch0 chrest,
      resolvedChanges crewOut env.ciResult.failed_runs head_sha = ch0 :: chrest := by
    cases hrc : resolvedChanges crewOut env.ciResult.failed_runs head_sha with
    | nil => exact absurd hrc (resolvedChanges_ne_nil _ _ _)
    | cons ch0 chrest => exact ⟨ch0, chrest, rfl⟩
  rw [hch]
  have henum : (ch0 :: chrest).enum.filterMap
      (fun ic => match env.commitOk ic.1 with
        | .ok _ => some ic.2.path
        | .error _ => none) =
      ch0.path :: (chrest.enumFrom 1).filterMap
        (fun ic => match env.commitOk ic.1 with
          | .ok _ => some ic.2.path
          | .error _ => none) := by
    rw [show (ch0 :: chrest).enum = (0, ch0) :: chrest.enumFrom 1 from rfl,
      List.filterMap_cons]
    rw [show (match env.commitOk (0, ch0).1 with
        | .ok _ => some (0, ch0).2.path
        | .error _ => none) = some ch0.path from by rw [show (0, ch0).1 = 0 from rfl, hc0]]
  rw [henum, hpr]
  apply List.mem_cons_of_mem
  apply List.mem_append_right
  exact List.mem_cons_self _ _

/-- Witness for C10: with the PR listing failing (non-200) and CI failed,
the concrete trace contains the create-branch and create-PR calls. -/
theorem listing_failure_disables_guard_witness :
    get_open_fix_prs none = [] ∧
    Action.createBranch ("fix/ci-".data ++ "abcdef1234".data.take 7) ∈
      process_push "o/r".data "abcdef1234".data "main".data "alice".data
        { sampleEnv with pullsResp := none } ∧
    Action.createPr ("fix/ci-".data ++ "abcdef1234".data.take 7)
        ({ sampleEnv with pullsResp := none } : ProcEnv).default_branch ∈
      process_push "o/r".data "abcdef1234".data "main".data "alice".data
        { sampleEnv with pullsResp := none } :=
  listing_failure_disables_guard "o/r".data "abcdef1234".data "main".data "alice".data
    { sampleEnv with pullsResp := none } "report".data rfl rfl rfl rfl rfl rfl

theorem buildSourceGo_fetched (fc : Str → Option Str) (l : List TreeFile) :
    ∀ (total : Nat) (parts : List Str) (fetched : List (Str × Nat)),
      ∀ pt ∈ (buildSourceGo fc l total parts fetched).2,
        pt ∈ fetched ∨ (pt.2 < 30000 ∧ ∃ f ∈ l, pt.1 = f.path ∧ f.size ≤ 50000) := by
  induction l with
  | nil => intro total parts fetched pt hpt; exact Or.inl hpt
  | cons f rest ih =>
    intro total parts fetched pt hpt
    rw [buildSourceGo] at hpt
    by_cases hcap : total ≥ 30000
    · rw [if_pos hcap] at hpt
      exact Or.inl hpt
    · rw [if_neg hcap] at hpt
      by_cases hsize : f.size > 50000
      · rw [if_pos hsize] at hpt
        rcases ih total parts fetched pt hpt with h | ⟨h1, g, hg, h2⟩
        · exact Or.inl h
        · exact Or.inr ⟨h1, g, by simp [hg], h2⟩
      · rw [if_neg hsize] at hpt
        cases hfc : fc f.path with
        | some content =>
          rw [hfc] at hpt
          rcases ih _ _ _ pt hpt with h | ⟨h1, g, hg, h2⟩
          · rcases List.mem_append.1 h with h | h
            · exact Or.inl h
            · rcases List.mem_singleton.1 h with rfl
              exact Or.inr ⟨by omega, f, by simp, rfl, by omega⟩
          · exact Or.inr ⟨h1, g, by simp [hg], h2⟩
        | none =>
          rw [hfc] at hpt
          rcases ih _ _ _ pt hpt with h | ⟨h1, g, hg, h2⟩
          · rcases List.mem_append.1 h with h | h
            · exact Or.inl h
            · rcases List.mem_singleton.1 h with rfl
              exact Or.inr ⟨by omega, f, by simp, rfl, by omega⟩
          · exact Or.inr ⟨h1, g, by simp [hg], h2⟩

/-- C4 (amended): the source-bundling loop issues each fetch only while the
running character total is still strictly below the 30,000-character cap
(so stopping at the cap holds, though the final concatenation may overshoot
by the last fetched section — see the counterexample), and a file whose
reported size exceeds 50,000 bytes is never fetched. -/
theorem source_bundle_caps (files : List TreeFile) (fileContent : Str → Option Str) :
    ∀ pt ∈ (buildSource files fileContent).2,
      pt.2 < 30000 ∧ ∃ f ∈ files, pt.1 = f.path ∧ f.size ≤ 50000 := by
  intro pt hpt
  have h := buildSourceGo_fetched fileContent files 0 [] [] pt (by
    rw [buildSource] at hpt
    exact hpt)
  rcases h with h | h
  · simp at h
  · exact h

/-- Counterexample to C4 as stated: a single 30,000-character file whose
reported size (100 bytes here — the Git blob size the code consults) is
within the 50,000 limit produces a `source_code` string of 30,013
characters, exceeding the claimed 30,000-character bound: the cap is
checked before each fetch, not on the result. -/
theorem source_bundle_cap_exceeded :
    30000 < (buildSource [⟨"a.py".data, 100⟩]
      (fun _ => some (List.replicate 30000 'x'))).1.length := by
  have hform : (buildSource [⟨"a.py".data, 100⟩]
      (fun _ => some (List.replicate 30000 'x'))).1 =
      "--- ".data ++ "a.py".data ++ " ---\n".data ++ List.replicate 30000 'x' := rfl
  rw [hform]
  have l1 : ("--- ".data : Str).length = 4 := rfl
  have l2 : ("a.py".data : Str).length = 4 := rfl
  have l3 : (" ---\n".data : Str).length = 5 := rfl
  rw [List.length_append, List.length_append, List.length_append, l1, l2, l3,
    List.length_replicate]
  omega

/-- Witness for the amended C4: with one small file, one oversized file and
one file fetched after the cap is reached, exactly the small file is
fetched, at running total 0, and it satisfies the amended bounds. -/
theorem source_bundle_caps_witness :
    (("a.py".data, 0) ∈ (buildSource
        [⟨"a.py".data, 10⟩, ⟨"big.py".data, 60000⟩]
        (fun _ => some "x".data)).2) ∧
    (0 < 30000 ∧ ∃ f ∈ [(⟨"a.py".data, 10⟩ : TreeFile), ⟨"big.py".data, 60000⟩],
      ("a.py".data, 0).1 = f.path ∧ f.size ≤ 50000) := by
  have hmem : ("a.py".data, 0) ∈ (buildSource
      [⟨"a.py".data, 10⟩, ⟨"big.py".data, 60000⟩]
      (fun _ => some "x".data)).2 := by
    have : (buildSource [⟨"a.py".data, 10⟩, ⟨"big.py".data, 60000⟩]
        (fun _ => some "x".data)).2 = [("a.py".data, 0)] := rfl
    rw [this]
    exact List.mem_singleton.2 rfl
  exact ⟨hmem, source_bundle_caps _ _ _ hmem⟩

theorem fileEntry_wellformed (p c : PyVal) :
    fileEntry (PyVal.dict [("path".data, p), ("content".data, c)]) = some (p, c) := rfl

theorem collectArr_wellformed (pcs : List (PyVal × PyVal)) (rest2 : List PyVal) :
    collectArr ((pcs.map fun pc =>
        PyVal.dict [("path".data, pc.1), ("content".data, pc.2)]) ++ rest2) =
      (pcs.map fun pc => (⟨pc.1, pc.2⟩ : FileChange)) ++ collectArr rest2 := by
  induction pcs with
  | nil => rfl
  | cons pc pcs2 ih =>
    rw [List.map_cons, List.cons_append, collectArr, fileEntry_wellformed, ih]
    rfl

/-- C5 (amended): for every input text containing zero matches of the
primary grammar whose body is valid JSON of an object with a `files` list:
when every element is a `{path, content}` object, `parse_file_changes`
returns one edit per array element, in array order; and when the list has a
malformed element, nothing is raised (the model is total) and the edits
collected before the first malformed element are returned — so malformed
structured input yields the well-formed prefix, which is empty only when no
well-formed element precedes the failure. -/
theorem json_fallback_spec (t : Str) (kvs : List (Str × PyVal))
    (pcs : List (PyVal × PyVal)) (bad : PyVal) (rest : List PyVal)
    (hzero : findIter t = [])
    (hjson : json_loads t = some (.dict kvs)) :
    (lookupKey kvs "files".data = some (.arr (pcs.map fun pc =>
        PyVal.dict [("path".data, pc.1), ("content".data, pc.2)])) →
      parse_file_changes t = pcs.map fun pc => ⟨pc.1, pc.2⟩) ∧
    (lookupKey kvs "files".data = some (.arr ((pcs.map fun pc =>
        PyVal.dict [("path".data, pc.1), ("content".data, pc.2)]) ++ bad :: rest)) →
      fileEntry bad = none →
      parse_file_changes t = pcs.map fun pc => ⟨pc.1, pc.2⟩) := by
  have hbase : ∀ files : PyVal, lookupKey kvs "files".data = some files →
      parse_file_changes t = collectFiles files := by
    intro files hfiles
    rw [parse_file_changes, hzero]
    show (match ([] : List FileChange) with
      | _ :: _ => ([] : List FileChange)
      | [] =>
        match json_loads t with
        | some (.dict kvs2) =>
          match lookupKey kvs2 "files".data with
          | some files2 => collectFiles files2
          | none => []
        | _ => []) = _
    rw [hjson]
    show (match lookupKey kvs "files".data with
      | some files2 => collectFiles files2
      | none => []) = _
    rw [hfiles]
  constructor
  · intro hfiles
    rw [hbase _ hfiles, collectFiles,
      show (pcs.map fun pc =>
        PyVal.dict [("path".data, pc.1), ("content".data, pc.2)]) =
        (pcs.map fun pc =>
          PyVal.dict [("path".data, pc.1), ("content".data, pc.2)]) ++ [] from
        (List.append_nil _).symm,
      collectArr_wellformed]
    rw [show collectArr ([] : List PyVal) = [] from rfl, List.append_nil]
  · intro hfiles hbad
    rw [hbase _ hfiles, collectFiles, collectArr_wellformed, collectArr, hbad,
      List.append_nil]

/-- Counterexample to C5 as stated: the input has zero primary-grammar
matches and is valid JSON whose `files` list has a well-formed first element
and a second element lacking `content`; the claim says malformed structured
input yields an empty list, but `parse_file_changes` returns the one edit
appended before the `KeyError` was raised and caught. -/
theorem json_fallback_claim_false :
    parse_file_changes
        "\x7b\"files\": [\x7b\"path\": \"a\", \"content\": \"b\"\x7d, \x7b\"path\": \"c\"\x7d]\x7d".data =
      [(⟨.str "a".data, .str "b".data⟩ : FileChange)] ∧
    [(⟨.str "a".data, .str "b".data⟩ : FileChange)] ≠ [] := by
  exact ⟨rfl, by simp⟩

/-- Witness for the amended C5: a fully well-formed `files` list yields one
edit per element, and the counterexample input yields exactly its
well-formed prefix. -/
theorem json_fallback_spec_witness :
    parse_file_changes "\x7b\"files\": [\x7b\"path\": \"a\", \"content\": \"b\"\x7d]\x7d".data =
      [(⟨.str "a".data, .str "b".data⟩ : FileChange)] ∧
    parse_file_changes
        "\x7b\"files\": [\x7b\"path\": \"a\", \"content\": \"b\"\x7d, \x7b\"path\": \"c\"\x7d]\x7d".data =
      [(⟨.str "a".data, .str "b".data⟩ : FileChange)] := by
  constructor
  · exact ((json_fallback_spec
      "\x7b\"files\": [\x7b\"path\": \"a\", \"content\": \"b\"\x7d]\x7d".data
      [("files".data, .arr [.dict [("path".data, .str "a".data),
        ("content".data, .str "b".data)]])]
      [(.str "a".data, .str "b".data)] .null [] rfl rfl).1 rfl).trans rfl
  · exact ((json_fallback_spec
      "\x7b\"files\": [\x7b\"path\": \"a\", \"content\": \"b\"\x7d, \x7b\"path\": \"c\"\x7d]\x7d".data
      [("files".data, .arr [.dict [("path".data, .str "a".data),
          ("content".data, .str "b".data)],
        .dict [("path".data, .str "c".data)]])]
      [(.str "a".data, .str "b".data)] (.dict [("path".data, .str "c".data)]) []
      rfl rfl).2 rfl rfl).trans rfl

theorem logStep_fetched (fetchLog : Nat → Option Str) (jobs : List Job)
    (acc : List Str × List Nat) :
    (jobs.foldl (logStep fetchLog) acc).2 =
      acc.2 ++ (jobs.filter fun j => j.conclusion = some "failure".data).map (·.id) := by
  induction jobs generalizing acc with
  | nil => simp
  | cons j rest ih =>
    rw [List.foldl_cons, ih, List.filter_cons]
    by_cases h : j.conclusion = some "failure".data
    · cases hf : fetchLog j.id <;>
        simp [logStep, h, hf, List.map_cons, List.append_assoc]
    · simp [logStep, h]

/-- C9: a fetched job log longer than 6000 characters is replaced by the
truncation marker followed by exactly its last 6000 characters; a log of at
most 6000 characters is kept unchanged; and within a run only the jobs whose
conclusion is exactly `failure` have their logs fetched (in job order). -/
theorem log_truncation :
    (∀ t : Str, t.length > 6000 →
      truncateLog t = "...(truncated)...\n".data ++ t.drop (t.length - 6000) ∧
        (t.drop (t.length - 6000)).length = 6000) ∧
    (∀ t : Str, t.length ≤ 6000 → truncateLog t = t) ∧
    (∀ (jobs : List Job) (fetchLog : Nat → Option Str),
      (get_workflow_run_logs (some jobs) fetchLog).2 =
        (jobs.filter fun j => j.conclusion = some "failure".data).map (·.id)) := by
  refine ⟨fun t ht => ⟨?_, ?_⟩, fun t ht => ?_, fun jobs fetchLog => ?_⟩
  · simp only [truncateLog, if_pos ht]
  · rw [List.length_drop]
    omega
  · have hnot : ¬ t.length > 6000 := by omega
    simp only [truncateLog, if_neg hnot]
  · simp only [get_workflow_run_logs]
    rw [logStep_fetched]
    simp

/-- Witness for C9: a 6001-character log is tail-truncated to its last 6000
characters behind the marker, a short log is unchanged, and only the
`failure`-conclusion job's log is fetched. -/
theorem log_truncation_witness :
    ((List.replicate 6001 'a').length > 6000 ∧
      truncateLog (List.replicate 6001 'a') =
        "...(truncated)...\n".data ++
          (List.replicate 6001 'a').drop ((List.replicate 6001 'a').length - 6000) ∧
      ((List.replicate 6001 'a').drop ((List.replicate 6001 'a').length - 6000)).length
        = 6000) ∧
    truncateLog "short log".data = "short log".data ∧
    (get_workflow_run_logs
        (some [⟨1, some "build".data, some "failure".data⟩,
               ⟨2, some "lint".data, some "success".data⟩,
               ⟨3, none, none⟩])
        (fun _ => some "log text".data)).2 = [1] := by
  have hlen : (List.replicate 6001 'a').length > 6000 := by
    rw [List.length_replicate]
    omega
  refine ⟨⟨hlen, (log_truncation.1 _ hlen).1, (log_truncation.1 _ hlen).2⟩, ?_, ?_⟩
  · exact log_truncation.2.1 "short log".data (by decide)
  · exact (log_truncation.2.2
      [⟨1, some "build".data, some "failure".data⟩,
       ⟨2, some "lint".data, some "success".data⟩,
       ⟨3, none, none⟩] (fun _ => some "log text".data)).trans (by decide)

end RepoPilot
